import Mathlib

/-!
Verification of the reusable thread rendezvous barrier (ion/port/barrier.cc).

The source file provides three platform implementations of `Barrier`:
* Windows: a double-turnstile built from two counting semaphores and an
  atomic wait count (`Barrier::Wait` / `Barrier::WaitInternal`);
* Linux/QNX: a thin wrapper over the native `pthread_barrier_t`, plus a
  `waiting_count_` used by the destructor to wait for threads to leave;
* other POSIX: a mutex, a condition variable, and an exit handshake driven
  by `exit_count_`.

Each implementation is embedded as a small-step transition system.  One
step of the system is one atomic region of the source code: a region of
code executed while holding the single mutex (condvar version), one atomic
read-modify-write of the wait count (Windows version), or one semaphore
operation.  Threads are `Fin n` where `n` is the participant count, which
matches the usage contract (exactly `n` participant threads).  Ghost fields
(`rounds`, `completed`, `arrived`, `writes`) record history and never
influence which steps are enabled, except that the client harness protocol
"write to shared memory, then call Wait" guards arrivals, mirroring the
happens-before test of the specification.

Condition variables are modelled without spurious wakeups, as the source
relies on (its waits are not wrapped in condition re-check loops).
`pthread_barrier_init` / `pthread_barrier_wait` are host primitives; they
are modelled from POSIX: init succeeds iff the count is positive (resource
exhaustion is not modelled, matching the spec, which treats host primitive
failure as a non-local fatal fault), and a wait on a barrier of count `n`
blocks its caller until `n` callers have arrived, then releases them all.
-/

set_option maxHeartbeats 1600000

namespace Barrier

/-! ### Generic counting helpers over thread-indexed functions -/

/-- Number of threads `t` with `f t = p`. -/
def cnt {n : Nat} {α : Type} [DecidableEq α] (f : Fin n → α) (p : α) : Nat :=
  (Finset.univ.filter fun t => f t = p).card

/-! ### Constructor field models (all three strategies)

These mirror the initializer lists and the top-level guards of `Wait`. -/

/-- `is_valid_(thread_count_ > 0)`, Windows constructor, part_000 line 68. -/
def winIsValid (threadCount : Nat) : Bool := decide (0 < threadCount)

/-- `is_valid_(thread_count_ > 0)`, condvar constructor, part_000 line 152. -/
def cvIsValid (threadCount : Nat) : Bool := decide (0 < threadCount)

/-- Result of `pthread_barrier_init(&barrier_, NULL, thread_count) == 0`.
Modelled from POSIX: init fails with EINVAL iff the count is zero; resource
exhaustion is not modelled (the spec treats host allocation failure as an
unrecoverable non-local fault, not a behavior of this component). -/
def pthreadBarrierInitOk (threadCount : Nat) : Bool := decide (0 < threadCount)

/-- `is_valid_(!pthread_barrier_init(...))`, pthread constructor, line 119. -/
def pbIsValid (threadCount : Nat) : Bool := pthreadBarrierInitOk threadCount

/-- Guard of the Windows `Wait` body: `IsValid() && thread_count_ > 1`
(line 87).  When false, `Wait` returns without touching the turnstiles. -/
def winWaitEntersProtocol (threadCount : Nat) : Bool :=
  winIsValid threadCount && decide (1 < threadCount)

/-- Guard of the condvar `Wait` body: `IsValid()` (line 175). -/
def cvWaitEntersBody (threadCount : Nat) : Bool := cvIsValid threadCount

/-- Guard of the pthread `Wait` body: `IsValid()` (line 131). -/
def pbWaitEntersBody (threadCount : Nat) : Bool := pbIsValid threadCount

/-- `pthread_barrier_wait` on a barrier with count `total`, when `arrived`
callers are already blocked inside it, blocks the new caller iff the new
arrival does not complete the cohort.  Modelled from POSIX. -/
def pthreadBarrierWaitBlocks (total arrived : Nat) : Bool :=
  decide (arrived + 1 < total)

/-! ### The mutex + condition variable + exit count strategy (lines 148-195)

One step is one critical section of the single mutex `mutex_`:
* `write`: harness action of a participant, a shared-memory write performed
  before calling `Wait` (used for the happens-before property);
* `arriveNonLast`: lock; `++wait_count_` does not reach `thread_count_`;
  `pthread_cond_wait(&condition_, &mutex_)` releases the mutex and parks
  the thread (phase `waiting`);
* `arriveLast`: lock; `++wait_count_ == thread_count_`; reset
  `wait_count_ = 0`, set `exit_count_ = thread_count_ + 1`, broadcast
  `condition_` (every `waiting` thread becomes `woken`), then, still in the
  same critical section, `--exit_count_` and unlock; the caller returns;
* `exitWoken`: a `woken` thread reacquires the mutex, runs `--exit_count_`,
  broadcasts `exit_condition_` if the decrement reached zero, unlocks and
  returns;
* `dtorEnter` / `dtorEnterSmall`: the destructor critical section,
  `if (thread_count_ > 1 && --exit_count_) pthread_cond_wait(&exit_condition_, &mutex_)`;
* `dtorFinish`: the destructor, woken from `exit_condition_`, unlocks and
  destroys the mutex and both condition variables (phase `done`).

Arrivals and harness writes require the destructor not to have been
entered: the caller contract (spec section 6) makes any later `Wait` call
undefined behavior, so such traces are outside the model. -/

inductive CVPhase : Type where
  | idle : CVPhase
  | waiting : CVPhase
  | woken : CVPhase
  deriving DecidableEq, Repr

inductive CVDtor : Type where
  | notCalled : CVDtor
  | waitingExit : CVDtor
  | wokenExit : CVDtor
  | done : CVDtor
  deriving DecidableEq, Repr

@[ext]
structure CVState (n : Nat) : Type where
  /-- `wait_count_` -/
  waitCount : Nat
  /-- `exit_count_` (an `int32` in the source; values stay tiny) -/
  exitCount : Int
  /-- where each participant thread is inside `Wait` -/
  phase : Fin n → CVPhase
  /-- ghost: rounds of `Wait` this thread has completed (returned from) -/
  completed : Fin n → Nat
  /-- ghost: shared-memory writes this thread has performed (harness) -/
  writes : Fin n → Nat
  /-- ghost: number of threshold releases (broadcasts of `condition_`) -/
  rounds : Nat
  /-- state of the destructor -/
  dtor : CVDtor
  deriving DecidableEq

/-- State right after the constructor (lines 148-158): counters zero,
`exit_count_ = 1`, nobody inside `Wait`. -/
def CVInit (n : Nat) : CVState n where
  waitCount := 0
  exitCount := 1
  phase := fun _ => .idle
  completed := fun _ => 0
  writes := fun _ => 0
  rounds := 0
  dtor := .notCalled

inductive CVStep (n : Nat) : CVState n → CVState n → Prop where
  | write (s : CVState n) (t : Fin n)
      (hp : s.phase t = .idle) (hw : s.writes t = s.completed t)
      (hd : s.dtor = .notCalled) :
      CVStep n s { s with writes := Function.update s.writes t (s.writes t + 1) }
  | arriveNonLast (s : CVState n) (t : Fin n)
      (hp : s.phase t = .idle) (hw : s.writes t = s.completed t + 1)
      (hd : s.dtor = .notCalled) (hlim : s.waitCount + 1 ≠ n) :
      CVStep n s { s with
        waitCount := s.waitCount + 1
        phase := Function.update s.phase t .waiting }
  | arriveLast (s : CVState n) (t : Fin n)
      (hp : s.phase t = .idle) (hw : s.writes t = s.completed t + 1)
      (hd : s.dtor = .notCalled) (hlim : s.waitCount + 1 = n) :
      CVStep n s { s with
        waitCount := 0
        exitCount := ((n : Int) + 1) - 1
        phase := fun u => if s.phase u = .waiting then .woken else s.phase u
        completed := Function.update s.completed t (s.completed t + 1)
        rounds := s.rounds + 1
        dtor := if ((n : Int) + 1) - 1 = 0 ∧ s.dtor = .waitingExit
                then .wokenExit else s.dtor }
  | exitWoken (s : CVState n) (t : Fin n)
      (hp : s.phase t = .woken) :
      CVStep n s { s with
        exitCount := s.exitCount - 1
        phase := Function.update s.phase t .idle
        completed := Function.update s.completed t (s.completed t + 1)
        dtor := if s.exitCount - 1 = 0 ∧ s.dtor = .waitingExit
                then .wokenExit else s.dtor }
  | dtorEnter (s : CVState n)
      (hd : s.dtor = .notCalled) (hn : 1 < n) :
      CVStep n s { s with
        exitCount := s.exitCount - 1
        dtor := if s.exitCount - 1 = 0 then .done else .waitingExit }
  | dtorEnterSmall (s : CVState n)
      (hd : s.dtor = .notCalled) (hn : n ≤ 1) :
      CVStep n s { s with dtor := .done }
  | dtorFinish (s : CVState n)
      (hd : s.dtor = .wokenExit) :
      CVStep n s { s with dtor := .done }

/-- Reachability from the freshly constructed barrier. -/
def CVReach (n : Nat) (s : CVState n) : Prop :=
  Relation.ReflTransGen (CVStep n) (CVInit n) s

/-- Quiet state after `k` completed rounds: every thread idle, every ghost
counter at `k`, `wait_count_ = 0` and `exit_count_ = 1`. -/
def cvQuiet (n k : Nat) : CVState n where
  waitCount := 0
  exitCount := 1
  phase := fun _ => .idle
  completed := fun _ => k
  writes := fun _ => k
  rounds := k
  dtor := .notCalled

/-- Ghost arrival count of a thread: how many times it has called `Wait`
(its completed rounds, plus one if it is currently inside `Wait`). -/
def cvArrivals {n : Nat} (s : CVState n) (t : Fin n) : Nat :=
  s.completed t + (if s.phase t = .idle then 0 else 1)

/-- One unit if the destructor has already performed its own
`--exit_count_` (only the `thread_count_ > 1` path decrements). -/
def cvDtorDec (n : Nat) (d : CVDtor) : Int :=
  if n ≤ 1 then 0 else if d = .notCalled then 0 else 1

/-- Inductive invariant of the condvar barrier. -/
structure CVInv (n : Nat) (s : CVState n) : Prop where
  /-- `wait_count_` counts exactly the threads parked on `condition_`. -/
  waitEq : s.waitCount = cnt s.phase .waiting
  /-- `wait_count_` never rests at the threshold: the reset happens in the
  same critical section in which the threshold is reached. -/
  waitLt : 0 < n → s.waitCount < n
  /-- the exit handshake accounting. -/
  exitEq : s.exitCount = 1 + (cnt s.phase .woken : Int) - cvDtorDec n s.dtor
  /-- idle threads have completed every released round and have written for
  at most one round ahead. -/
  idleInv : ∀ t, s.phase t = .idle →
    s.completed t = s.rounds ∧
      (s.writes t = s.rounds ∨ s.writes t = s.rounds + 1)
  /-- parked threads arrived for the round after the last released one. -/
  waitingInv : ∀ t, s.phase t = .waiting →
    s.completed t = s.rounds ∧ s.writes t = s.rounds + 1
  /-- woken threads belong to the last released round. -/
  wokenInv : ∀ t, s.phase t = .woken →
    s.completed t + 1 = s.rounds ∧ s.writes t = s.rounds
  /-- a single participant never parks. -/
  oneIdle : n = 1 → ∀ t, s.phase t = .idle
  /-- the destructor blocks only if some round has been released, and only
  with at least two participants. -/
  dtorBlocked : s.dtor = .waitingExit ∨ s.dtor = .wokenExit →
    1 ≤ s.rounds ∧ 2 ≤ n
  /-- once the destructor was signalled, the handshake is over. -/
  dtorWoken : s.dtor = .wokenExit →
    s.exitCount = 0 ∧ cnt s.phase .woken = 0
  /-- destruction completed: no thread of the released round remains. -/
  dtorDone : s.dtor = .done → 2 ≤ n →
    s.exitCount = 0 ∧ cnt s.phase .woken = 0

/-! ### The Windows double-turnstile strategy (lines 63-108)

`Wait` runs `WaitInternal(1, thread_count_, turnstile1_)` and then
`WaitInternal(-1, 0, turnstile2_)`.  Each `WaitInternal` performs one atomic
read-modify-write of `wait_count_` and then either releases
`thread_count_ - 1` semaphore permits (when the limit was hit) or blocks on
the semaphore.  Phases of a thread inside `Wait`:
* `preBlock1`: updated `wait_count_`, did not hit the limit, inside (or
  about to enter) `WaitForSingleObject(turnstile1_)`;
* `releasing1`: hit the limit `thread_count_`, about to run
  `ReleaseSemaphore(turnstile1_, thread_count_ - 1)`;
* `mid`: returned from the first `WaitInternal`;
* `preBlock2` / `releasing2`: same for the second `WaitInternal` with
  increment `-1` and limit `0`;
* `idle`: not inside `Wait`.

The destructor (lines 75-84) closes both semaphore handles immediately; it
has no guard at all, which is exactly the behavior under scrutiny. -/

inductive WPhase : Type where
  | idle : WPhase
  | preBlock1 : WPhase
  | releasing1 : WPhase
  | mid : WPhase
  | preBlock2 : WPhase
  | releasing2 : WPhase
  deriving DecidableEq, Repr

@[ext]
structure WinState (n : Nat) : Type where
  /-- `wait_count_`, an atomic `int32` -/
  waitCount : Int
  /-- permit count of `turnstile1_` -/
  sem1 : Nat
  /-- permit count of `turnstile2_` -/
  sem2 : Nat
  phase : Fin n → WPhase
  /-- ghost: completed `Wait` entries of each thread -/
  arrived : Fin n → Nat
  /-- ghost: completed `Wait` calls of each thread -/
  completed : Fin n → Nat
  /-- ghost: times `wait_count_` reached `thread_count_` -/
  r1 : Nat
  /-- ghost: times `wait_count_` returned to `0` -/
  r2 : Nat
  /-- both semaphore handles closed by the destructor -/
  destroyed : Bool
  deriving DecidableEq

def WinInit (n : Nat) : WinState n where
  waitCount := 0
  sem1 := 0
  sem2 := 0
  phase := fun _ => .idle
  arrived := fun _ => 0
  completed := fun _ => 0
  r1 := 0
  r2 := 0
  destroyed := false

inductive WinStep (n : Nat) : WinState n → WinState n → Prop where
  | addArriveNonLast (s : WinState n) (t : Fin n)
      (hp : s.phase t = .idle) (hd : s.destroyed = false) (hn : 1 < n)
      (hlim : s.waitCount + 1 ≠ (n : Int)) :
      WinStep n s { s with
        waitCount := s.waitCount + 1
        phase := Function.update s.phase t .preBlock1
        arrived := Function.update s.arrived t (s.arrived t + 1) }
  | addArriveLast (s : WinState n) (t : Fin n)
      (hp : s.phase t = .idle) (hd : s.destroyed = false) (hn : 1 < n)
      (hlim : s.waitCount + 1 = (n : Int)) :
      WinStep n s { s with
        waitCount := s.waitCount + 1
        phase := Function.update s.phase t .releasing1
        arrived := Function.update s.arrived t (s.arrived t + 1)
        r1 := s.r1 + 1 }
  | release1 (s : WinState n) (t : Fin n)
      (hp : s.phase t = .releasing1) (hd : s.destroyed = false) :
      WinStep n s { s with
        sem1 := s.sem1 + (n - 1)
        phase := Function.update s.phase t .mid }
  | block1 (s : WinState n) (t : Fin n)
      (hp : s.phase t = .preBlock1) (hd : s.destroyed = false)
      (hs : 0 < s.sem1) :
      WinStep n s { s with
        sem1 := s.sem1 - 1
        phase := Function.update s.phase t .mid }
  | addExitNonLast (s : WinState n) (t : Fin n)
      (hp : s.phase t = .mid) (hd : s.destroyed = false)
      (hlim : s.waitCount - 1 ≠ 0) :
      WinStep n s { s with
        waitCount := s.waitCount - 1
        phase := Function.update s.phase t .preBlock2 }
  | addExitLast (s : WinState n) (t : Fin n)
      (hp : s.phase t = .mid) (hd : s.destroyed = false)
      (hlim : s.waitCount - 1 = 0) :
      WinStep n s { s with
        waitCount := s.waitCount - 1
        phase := Function.update s.phase t .releasing2
        r2 := s.r2 + 1 }
  | release2 (s : WinState n) (t : Fin n)
      (hp : s.phase t = .releasing2) (hd : s.destroyed = false) :
      WinStep n s { s with
        sem2 := s.sem2 + (n - 1)
        phase := Function.update s.phase t .idle
        completed := Function.update s.completed t (s.completed t + 1) }
  | block2 (s : WinState n) (t : Fin n)
      (hp : s.phase t = .preBlock2) (hd : s.destroyed = false)
      (hs : 0 < s.sem2) :
      WinStep n s { s with
        sem2 := s.sem2 - 1
        phase := Function.update s.phase t .idle
        completed := Function.update s.completed t (s.completed t + 1) }
  | dtor (s : WinState n) (hd : s.destroyed = false) :
      WinStep n s { s with destroyed := true }

def WinReach (n : Nat) (s : WinState n) : Prop :=
  Relation.ReflTransGen (WinStep n) (WinInit n) s

/-- Number of arrivals already counted toward the round currently being
filled (the abstract `arrived_count` of the specification, realized on the
Windows strategy). -/
def winArrivedCur {n : Nat} (s : WinState n) : Nat :=
  cnt s.arrived (s.r1 + 1)

/-- Quiet Windows state after `k` completed rounds. -/
def winQuiet (n k : Nat) : WinState n where
  waitCount := 0
  sem1 := 0
  sem2 := 0
  phase := fun _ => .idle
  arrived := fun _ => k
  completed := fun _ => k
  r1 := k
  r2 := k
  destroyed := false

/-- Inductive invariant of the Windows double-turnstile barrier. -/
structure WinInv (n : Nat) (s : WinState n) : Prop where
  /-- with at most one participant, `Wait` never enters the protocol. -/
  small : n ≤ 1 → (∀ t, s.phase t = .idle) ∧ s.waitCount = 0 ∧ s.sem1 = 0 ∧
    s.sem2 = 0 ∧ s.r1 = 0 ∧ s.r2 = 0 ∧ ∀ t, s.arrived t = 0 ∧ s.completed t = 0
  /-- `wait_count_` counts threads between their first and second atomic
  updates of it. -/
  waitEq : s.waitCount = (cnt s.phase .preBlock1 : Int) +
    (cnt s.phase .releasing1 : Int) + (cnt s.phase .mid : Int)
  /-- a thread is inside `Wait` iff it has an uncompleted arrival. -/
  arr : ∀ t, (s.phase t = .idle → s.arrived t = s.completed t) ∧
    (s.phase t ≠ .idle → s.arrived t = s.completed t + 1)
  /-- rounds alternate: fill to the threshold, then drain to zero. -/
  rle : s.r2 ≤ s.r1 ∧ s.r1 ≤ s.r2 + 1
  /-- between rounds (`r1 = r2`). -/
  k0 : s.r1 = s.r2 →
    cnt s.phase .releasing1 = 0 ∧ cnt s.phase .mid = 0 ∧ s.sem1 = 0 ∧
    (0 < n → s.waitCount + 1 ≤ (n : Int)) ∧
    (∀ t, (s.phase t = .idle → s.arrived t = s.r1) ∧
      (s.phase t = .preBlock1 → s.arrived t = s.r1 + 1) ∧
      (s.phase t = .preBlock2 → s.arrived t = s.r1) ∧
      (s.phase t = .releasing2 → s.arrived t = s.r1)) ∧
    (cnt s.phase .releasing2 = 0 → s.sem2 = cnt s.phase .preBlock2) ∧
    (cnt s.phase .releasing2 ≠ 0 → s.sem2 = 0 ∧
      cnt s.phase .preBlock2 + 1 = n ∧ cnt s.phase .idle = 0 ∧
      cnt s.phase .preBlock1 = 0 ∧ cnt s.phase .releasing2 = 1)
  /-- mid-round (`r1 = r2 + 1`): the released cohort is draining. -/
  k1 : s.r1 = s.r2 + 1 →
    (∀ t, s.arrived t = s.r1 ∧ s.phase t ≠ .idle ∧ s.phase t ≠ .releasing2) ∧
    s.sem2 = 0 ∧
    (cnt s.phase .releasing1 ≠ 0 → cnt s.phase .releasing1 = 1 ∧
      cnt s.phase .preBlock1 + 1 = n ∧ s.sem1 = 0 ∧ cnt s.phase .mid = 0 ∧
      cnt s.phase .preBlock2 = 0 ∧ s.waitCount = (n : Int)) ∧
    (cnt s.phase .releasing1 = 0 → s.sem1 = cnt s.phase .preBlock1 ∧
      1 ≤ s.waitCount)

/-! ### The native pthread barrier strategy (lines 117-136)

`Wait` increments `waiting_count_`, calls the native
`pthread_barrier_wait`, and decrements `waiting_count_`.  The native
barrier is a host primitive, modelled from POSIX: a caller blocks until
`thread_count` callers have arrived, then all of them return and the
native barrier resets.  The destructor spins until `waiting_count_ == 0`
and only then calls `pthread_barrier_destroy`; the completed destruction
is the `destroy` step, whose guard is the exit condition of the spin
loop. -/

inductive PBPhase : Type where
  | idle : PBPhase
  | counted : PBPhase
  | inBarrier : PBPhase
  | released : PBPhase
  deriving DecidableEq, Repr

@[ext]
structure PBState (n : Nat) : Type where
  /-- `waiting_count_` -/
  waitingCount : Int
  phase : Fin n → PBPhase
  /-- `pthread_barrier_destroy` performed -/
  destroyed : Bool
  deriving DecidableEq

def PBInit (n : Nat) : PBState n where
  waitingCount := 0
  phase := fun _ => .idle
  destroyed := false

inductive PBStep (n : Nat) : PBState n → PBState n → Prop where
  | enter (s : PBState n) (t : Fin n)
      (hp : s.phase t = .idle) (hd : s.destroyed = false) (hv : 0 < n) :
      PBStep n s { s with
        waitingCount := s.waitingCount + 1
        phase := Function.update s.phase t .counted }
  | nativeNonLast (s : PBState n) (t : Fin n)
      (hp : s.phase t = .counted) (hd : s.destroyed = false)
      (hlim : cnt s.phase .inBarrier + 1 ≠ n) :
      PBStep n s { s with phase := Function.update s.phase t .inBarrier }
  | nativeLast (s : PBState n) (t : Fin n)
      (hp : s.phase t = .counted) (hd : s.destroyed = false)
      (hlim : cnt s.phase .inBarrier + 1 = n) :
      PBStep n s { s with phase := fun u =>
        if u = t ∨ s.phase u = .inBarrier then .released else s.phase u }
  | exit (s : PBState n) (t : Fin n)
      (hp : s.phase t = .released) (hd : s.destroyed = false) :
      PBStep n s { s with
        waitingCount := s.waitingCount - 1
        phase := Function.update s.phase t .idle }
  | destroy (s : PBState n)
      (hv : 0 < n) (hw : s.waitingCount = 0) (hd : s.destroyed = false) :
      PBStep n s { s with destroyed := true }

def PBReach (n : Nat) (s : PBState n) : Prop :=
  Relation.ReflTransGen (PBStep n) (PBInit n) s

/-- Inductive invariant of the pthread barrier wrapper. -/
structure PBInv (n : Nat) (s : PBState n) : Prop where
  /-- `waiting_count_` counts the threads inside `Wait`. -/
  waitEq : s.waitingCount + (cnt s.phase .idle : Int) = n
  /-- the native barrier never holds a full cohort. -/
  inLt : 0 < n → cnt s.phase .inBarrier < n

/-- A reachable two-participant Windows state in which thread `0` is still
blocked inside `WaitForSingleObject` on `turnstile2_` (no permit has been
posted yet) while thread `1` is about to release the second turnstile. -/
def winCex : WinState 2 where
  waitCount := 0
  sem1 := 0
  sem2 := 0
  phase := fun t => if t = 0 then WPhase.preBlock2 else WPhase.releasing2
  arrived := fun _ => 1
  completed := fun _ => 0
  r1 := 1
  r2 := 1
  destroyed := false

theorem cnt_le {n : Nat} {α : Type} [DecidableEq α] (f : Fin n → α) (p : α) :
    cnt f p ≤ n := by
  classical
  calc (Finset.univ.filter fun t => f t = p).card
      ≤ (Finset.univ : Finset (Fin n)).card := Finset.card_filter_le _ _
    _ = n := by simp

theorem cnt_eq_zero {n : Nat} {α : Type} [DecidableEq α] {f : Fin n → α} {p : α} :
    cnt f p = 0 ↔ ∀ t, f t ≠ p := by
  unfold cnt
  rw [Finset.card_eq_zero, Finset.filter_eq_empty_iff]
  simp

theorem cnt_pos {n : Nat} {α : Type} [DecidableEq α] {f : Fin n → α} {p : α}
    {t : Fin n} (h : f t = p) : 0 < cnt f p := by
  apply Finset.card_pos.mpr
  exact ⟨t, by simp [h]⟩

theorem cnt_congr {n : Nat} {α β : Type} [DecidableEq α] [DecidableEq β]
    {f : Fin n → α} {g : Fin n → β} {p : α} {q : β}
    (h : ∀ t, f t = p ↔ g t = q) : cnt f p = cnt g q := by
  unfold cnt
  congr 1
  apply Finset.filter_congr
  intro t _
  simpa using h t

theorem cnt_update_eq_ne {n : Nat} {α : Type} [DecidableEq α]
    {f : Fin n → α} {t : Fin n} {v p : α} (hft : f t = p) (hvp : v ≠ p) :
    cnt (Function.update f t v) p + 1 = cnt f p := by
  unfold cnt
  have hset : (Finset.univ.filter fun u => Function.update f t v u = p) =
      (Finset.univ.filter fun u => f u = p).erase t := by
    ext u
    by_cases hu : u = t
    · subst hu
      simp [Function.update_same, hvp]
    · simp [Function.update_noteq hu, hu]
  rw [hset, Finset.card_erase_of_mem (by simp [hft])]
  have hpos : 0 < (Finset.univ.filter fun u => f u = p).card :=
    Finset.card_pos.mpr ⟨t, by simp [hft]⟩
  omega

theorem cnt_update_ne_eq {n : Nat} {α : Type} [DecidableEq α]
    {f : Fin n → α} {t : Fin n} {v p : α} (hft : f t ≠ p) (hvp : v = p) :
    cnt (Function.update f t v) p = cnt f p + 1 := by
  unfold cnt
  have hset : (Finset.univ.filter fun u => Function.update f t v u = p) =
      insert t (Finset.univ.filter fun u => f u = p) := by
    ext u
    by_cases hu : u = t
    · subst hu
      simp [Function.update_same, hvp]
    · simp [Function.update_noteq hu, hu]
  rw [hset, Finset.card_insert_of_not_mem (by simp [hft])]

theorem cnt_update_ne_ne {n : Nat} {α : Type} [DecidableEq α]
    {f : Fin n → α} {t : Fin n} {v p : α} (hft : f t ≠ p) (hvp : v ≠ p) :
    cnt (Function.update f t v) p = cnt f p := by
  unfold cnt
  congr 1
  ext u
  by_cases hu : u = t
  · subst hu
    simp [Function.update_same, hvp, hft]
  · simp [Function.update_noteq hu]

/-- If all threads but `t` satisfy `f u = p` and `t` does not, the count is `n - 1`. -/
theorem cnt_of_all_but {n : Nat} {α : Type} [DecidableEq α]
    {f : Fin n → α} {t : Fin n} {p : α} (hft : f t ≠ p)
    (h : ∀ u, u ≠ t → f u = p) : cnt f p + 1 = n := by
  unfold cnt
  have hset : (Finset.univ.filter fun u => f u = p) = Finset.univ.erase t := by
    ext u
    by_cases hu : u = t
    · subst hu
      simp [hft]
    · simp [hu, h u hu]
  rw [hset, Finset.card_erase_of_mem (Finset.mem_univ t)]
  have : 0 < n := t.pos
  simp
  omega

/-- Conversely, if the count is `n - 1` and `t` is out, everyone else is in. -/
theorem all_but_of_cnt {n : Nat} {α : Type} [DecidableEq α]
    {f : Fin n → α} {t : Fin n} {p : α} (hft : f t ≠ p)
    (hcnt : cnt f p + 1 = n) : ∀ u, u ≠ t → f u = p := by
  have hsub : (Finset.univ.filter fun u => f u = p) ⊆ Finset.univ.erase t := by
    intro u hu
    simp only [Finset.mem_filter] at hu
    rcases hu with ⟨-, hu⟩
    apply Finset.mem_erase.mpr
    refine ⟨?_, Finset.mem_univ u⟩
    intro he
    exact hft (he ▸ hu)
  have hcard : (Finset.univ.erase t).card ≤ (Finset.univ.filter fun u => f u = p).card := by
    rw [Finset.card_erase_of_mem (Finset.mem_univ t)]
    have : (Finset.univ : Finset (Fin n)).card = n := by simp
    unfold cnt at hcnt
    omega
  have heq := Finset.eq_of_subset_of_card_le hsub hcard
  intro u hu
  have hmem : u ∈ Finset.univ.erase t := Finset.mem_erase.mpr ⟨hu, Finset.mem_univ u⟩
  rw [← heq] at hmem
  exact (Finset.mem_filter.mp hmem).2

theorem cnt_unique {n : Nat} {α : Type} [DecidableEq α]
    {f : Fin n → α} {p : α} {t u : Fin n}
    (hcnt : cnt f p ≤ 1) (ht : f t = p) (hu : f u = p) : t = u := by
  by_contra hne
  have hsub : ({t, u} : Finset (Fin n)) ⊆ Finset.univ.filter fun v => f v = p := by
    intro v hv
    simp only [Finset.mem_insert, Finset.mem_singleton] at hv
    rcases hv with rfl | rfl <;> simp [ht, hu]
  have h2 : ({t, u} : Finset (Fin n)).card = 2 := by
    rw [Finset.card_insert_of_not_mem (by simpa using hne)]
    simp
  have := Finset.card_le_card hsub
  unfold cnt at hcnt
  omega

theorem cnt_add_le {n : Nat} {α : Type} [DecidableEq α]
    (f : Fin n → α) {p q : α} (hpq : p ≠ q) : cnt f p + cnt f q ≤ n := by
  unfold cnt
  have hdis : Disjoint (Finset.univ.filter fun t => f t = p)
      (Finset.univ.filter fun t => f t = q) := by
    apply Finset.disjoint_left.mpr
    intro a hap haq
    simp only [Finset.mem_filter] at hap haq
    exact hpq (hap.2 ▸ haq.2 ▸ rfl)
  calc (Finset.univ.filter fun t => f t = p).card +
        (Finset.univ.filter fun t => f t = q).card
      = ((Finset.univ.filter fun t => f t = p) ∪
          (Finset.univ.filter fun t => f t = q)).card :=
        (Finset.card_union_of_disjoint hdis).symm
    _ ≤ (Finset.univ : Finset (Fin n)).card := Finset.card_le_univ _
    _ = n := by simp

theorem exists_of_cnt_ne_zero {n : Nat} {α : Type} [DecidableEq α]
    {f : Fin n → α} {p : α} (h : cnt f p ≠ 0) : ∃ t, f t = p := by
  by_contra hc
  push_neg at hc
  exact h (cnt_eq_zero.mpr hc)

theorem cvDtorDec_notCalled (n : Nat) : cvDtorDec n CVDtor.notCalled = 0 := by
  unfold cvDtorDec
  split <;> simp

theorem cvDtorDec_of_ne (n : Nat) {d : CVDtor} (hn : 2 ≤ n)
    (hd : d ≠ CVDtor.notCalled) : cvDtorDec n d = 1 := by
  unfold cvDtorDec
  rw [if_neg (by omega), if_neg hd]

theorem cvInv_init (n : Nat) : CVInv n (CVInit n) := by
  have hz : ∀ p : CVPhase, p ≠ CVPhase.idle → cnt (CVInit n).phase p = 0 := by
    intro p hp
    apply cnt_eq_zero.mpr
    intro t hc
    exact hp hc.symm
  have hdec : cvDtorDec n (CVInit n).dtor = 0 := cvDtorDec_notCalled n
  refine ⟨?_, ?_, ?_, ?_, ?_, ?_, ?_, ?_, ?_, ?_⟩
  · exact (hz _ (by decide)).symm
  · intro h
    exact h
  · rw [hz _ (by decide), hdec]
    rfl
  · intro t _
    exact ⟨rfl, Or.inl rfl⟩
  · intro t ht
    cases ht
  · intro t ht
    cases ht
  · intro _ t
    rfl
  · intro hdis
    rcases hdis with h | h <;> cases h
  · intro h
    cases h
  · intro h
    cases h

theorem cvInv_step {n : Nat} {s s' : CVState n} (h : CVStep n s s')
    (inv : CVInv n s) : CVInv n s' := by
  obtain ⟨waitEq, waitLt, exitEq, idleInv, waitingInv, wokenInv, oneIdle,
    dtorBlocked, dtorWoken, dtorDone⟩ := inv
  cases h with
  | write t hp hw hd =>
      refine ⟨waitEq, waitLt, exitEq, ?_, ?_, ?_, oneIdle, dtorBlocked, dtorWoken, dtorDone⟩
      · dsimp only
        intro u hu
        by_cases hut : u = t
        · subst hut
          rw [Function.update_same]
          rcases idleInv u hu with ⟨hc, -⟩
          exact ⟨hc, Or.inr (by rw [hw, hc])⟩
        · rw [Function.update_noteq hut]
          exact idleInv u hu
      · dsimp only
        intro u hu
        by_cases hut : u = t
        · subst hut
          rw [hp] at hu
          cases hu
        · rw [Function.update_noteq hut]
          exact waitingInv u hu
      · dsimp only
        intro u hu
        by_cases hut : u = t
        · subst hut
          rw [hp] at hu
          cases hu
        · rw [Function.update_noteq hut]
          exact wokenInv u hu
  | arriveNonLast t hp hw hd hlim =>
      have hptw : s.phase t ≠ CVPhase.waiting := by rw [hp]; decide
      have hcwk : cnt (Function.update s.phase t CVPhase.waiting) CVPhase.woken =
          cnt s.phase CVPhase.woken :=
        cnt_update_ne_ne (by rw [hp]; decide) (by decide)
      refine ⟨?_, ?_, ?_, ?_, ?_, ?_, ?_, dtorBlocked, ?_, ?_⟩
      · dsimp only
        rw [cnt_update_ne_eq hptw rfl, waitEq]
      · dsimp only
        intro hn
        have := waitLt hn
        omega
      · dsimp only
        rw [cnt_update_ne_ne (by rw [hp]; decide) (by decide)]
        exact exitEq
      · dsimp only
        intro u hu
        by_cases hut : u = t
        · subst hut
          rw [Function.update_same] at hu
          cases hu
        · rw [Function.update_noteq hut] at hu
          exact idleInv u hu
      · dsimp only
        intro u hu
        by_cases hut : u = t
        · subst hut
          rcases idleInv u hp with ⟨hc, -⟩
          exact ⟨hc, by rw [hw, hc]⟩
        · rw [Function.update_noteq hut] at hu
          exact waitingInv u hu
      · dsimp only
        intro u hu
        by_cases hut : u = t
        · subst hut
          rw [Function.update_same] at hu
          cases hu
        · rw [Function.update_noteq hut] at hu
          exact wokenInv u hu
      · dsimp only
        intro hn1 u
        exfalso
        have hzero : cnt s.phase CVPhase.waiting = 0 :=
          cnt_eq_zero.mpr fun v => by rw [oneIdle hn1 v]; decide
        omega
      · dsimp only
        intro hwe
        rw [hcwk]
        exact dtorWoken hwe
      · dsimp only
        intro hdn h2n
        rw [hcwk]
        exact dtorDone hdn h2n
  | arriveLast t hp hw hd hlim =>
      have hwn : cnt s.phase CVPhase.waiting + 1 = n := by rw [← waitEq]; exact hlim
      have hallw : ∀ u, u ≠ t → s.phase u = CVPhase.waiting :=
        all_but_of_cnt (by rw [hp]; decide) hwn
      have hpos : 0 < n := t.pos
      have hdtor' : (if ((n : Int) + 1) - 1 = 0 ∧ s.dtor = CVDtor.waitingExit
          then CVDtor.wokenExit else s.dtor) = CVDtor.notCalled := by
        rw [hd]
        rw [if_neg (by intro hcon; cases hcon.2)]
      have hph't : (if s.phase t = CVPhase.waiting then CVPhase.woken else s.phase t)
          = CVPhase.idle := by
        rw [if_neg (by rw [hp]; decide)]
        exact hp
      have hph'w : ∀ u, u ≠ t →
          (if s.phase u = CVPhase.waiting then CVPhase.woken else s.phase u)
            = CVPhase.woken := by
        intro u hut
        rw [if_pos (hallw u hut)]
      refine ⟨?_, ?_, ?_, ?_, ?_, ?_, ?_, ?_, ?_, ?_⟩
      · dsimp only
        symm
        apply cnt_eq_zero.mpr
        intro u
        by_cases hq : s.phase u = CVPhase.waiting
        · rw [if_pos hq]
          decide
        · rw [if_neg hq]
          exact hq
      · dsimp only
        intro _
        exact hpos
      · dsimp only
        rw [hdtor', cvDtorDec_notCalled]
        have hcw : cnt (fun u => if s.phase u = CVPhase.waiting
            then CVPhase.woken else s.phase u) CVPhase.woken + 1 = n :=
          cnt_of_all_but (t := t) (by rw [hph't]; decide)
            (fun u hut => hph'w u hut)
        push_cast [← hcw]
        ring
      · dsimp only
        intro u hu
        by_cases hut : u = t
        · subst hut
          rw [Function.update_same]
          rcases idleInv u hp with ⟨hc, -⟩
          refine ⟨by rw [hc], Or.inl ?_⟩
          rw [hw, hc]
        · exfalso
          rw [hph'w u hut] at hu
          cases hu
      · dsimp only
        intro u hu
        exfalso
        by_cases hq : s.phase u = CVPhase.waiting
        · rw [if_pos hq] at hu
          cases hu
        · rw [if_neg hq] at hu
          exact hq hu
      · dsimp only
        intro u hu
        by_cases hut : u = t
        · subst hut
          rw [hph't] at hu
          cases hu
        · rcases waitingInv u (hallw u hut) with ⟨hc, hwu⟩
          rw [Function.update_noteq hut]
          exact ⟨by rw [hc], by rw [hwu]⟩
      · dsimp only
        intro hn1 u
        have hu1 := u.isLt
        have ht1 := t.isLt
        have hut : u = t := by
          apply Fin.ext
          omega
        subst hut
        exact hph't
      · dsimp only
        intro hdis
        rw [hdtor'] at hdis
        rcases hdis with hcon | hcon <;> cases hcon
      · dsimp only
        intro hcon
        rw [hdtor'] at hcon
        cases hcon
      · dsimp only
        intro hcon
        rw [hdtor'] at hcon
        cases hcon
  | exitWoken t hp =>
      have hcnt : cnt (Function.update s.phase t CVPhase.idle) CVPhase.woken + 1 =
          cnt s.phase CVPhase.woken := cnt_update_eq_ne hp (by decide)
      refine ⟨?_, waitLt, ?_, ?_, ?_, ?_, ?_, ?_, ?_, ?_⟩
      · dsimp only
        rw [cnt_update_ne_ne (by rw [hp]; decide) (by decide)]
        exact waitEq
      · dsimp only
        by_cases hc : s.exitCount - 1 = 0 ∧ s.dtor = CVDtor.waitingExit
        · rw [if_pos hc]
          rcases dtorBlocked (Or.inl hc.2) with ⟨-, hn2⟩
          rw [cvDtorDec_of_ne n hn2 (by decide)]
          have hdec : cvDtorDec n s.dtor = 1 :=
            cvDtorDec_of_ne n hn2 (by rw [hc.2]; decide)
          rw [hdec] at exitEq
          omega
        · rw [if_neg hc]
          omega
      · dsimp only
        intro u hu
        by_cases hut : u = t
        · subst hut
          rw [Function.update_same]
          rcases wokenInv u hp with ⟨hc, hwu⟩
          exact ⟨hc, Or.inl hwu⟩
        · rw [Function.update_noteq hut] at hu
          rw [Function.update_noteq hut]
          exact idleInv u hu
      · dsimp only
        intro u hu
        by_cases hut : u = t
        · subst hut
          rw [Function.update_same] at hu
          cases hu
        · rw [Function.update_noteq hut] at hu
          rw [Function.update_noteq hut]
          exact waitingInv u hu
      · dsimp only
        intro u hu
        by_cases hut : u = t
        · subst hut
          rw [Function.update_same] at hu
          cases hu
        · rw [Function.update_noteq hut] at hu
          rw [Function.update_noteq hut]
          exact wokenInv u hu
      · dsimp only
        intro hn1
        exfalso
        have := oneIdle hn1 t
        rw [hp] at this
        cases this
      · dsimp only
        intro hdis
        by_cases hc : s.exitCount - 1 = 0 ∧ s.dtor = CVDtor.waitingExit
        · exact dtorBlocked (Or.inl hc.2)
        · rw [if_neg hc] at hdis
          exact dtorBlocked hdis
      · dsimp only
        intro hwe
        by_cases hc : s.exitCount - 1 = 0 ∧ s.dtor = CVDtor.waitingExit
        · rcases dtorBlocked (Or.inl hc.2) with ⟨-, hn2⟩
          have hdec : cvDtorDec n s.dtor = 1 :=
            cvDtorDec_of_ne n hn2 (by rw [hc.2]; decide)
          rw [hdec] at exitEq
          have h1 := hc.1
          refine ⟨h1, ?_⟩
          omega
        · rw [if_neg hc] at hwe
          exfalso
          rcases dtorWoken hwe with ⟨-, hzero⟩
          have := cnt_pos hp
          omega
      · dsimp only
        intro hdn h2n
        exfalso
        by_cases hc : s.exitCount - 1 = 0 ∧ s.dtor = CVDtor.waitingExit
        · rw [if_pos hc] at hdn
          cases hdn
        · rw [if_neg hc] at hdn
          rcases dtorDone hdn h2n with ⟨-, hzero⟩
          have := cnt_pos hp
          omega
  | dtorEnter hd hn =>
      have hdec0 : cvDtorDec n s.dtor = 0 := by rw [hd]; exact cvDtorDec_notCalled n
      refine ⟨waitEq, waitLt, ?_, idleInv, waitingInv, wokenInv, ?_, ?_, ?_, ?_⟩
      · dsimp only
        have hdec' : cvDtorDec n (if s.exitCount - 1 = 0
            then CVDtor.done else CVDtor.waitingExit) = 1 := by
          by_cases hzero : s.exitCount - 1 = 0
          · rw [if_pos hzero]
            exact cvDtorDec_of_ne n (by omega) (by decide)
          · rw [if_neg hzero]
            exact cvDtorDec_of_ne n (by omega) (by decide)
        rw [hdec']
        rw [hdec0] at exitEq
        omega
      · dsimp only
        intro hn1
        exfalso
        omega
      · dsimp only
        intro hdis
        by_cases hzero : s.exitCount - 1 = 0
        · rw [if_pos hzero] at hdis
          rcases hdis with hcon | hcon <;> cases hcon
        · refine ⟨?_, by omega⟩
          rw [hdec0] at exitEq
          have hne : cnt s.phase CVPhase.woken ≠ 0 := by omega
          rcases exists_of_cnt_ne_zero hne with ⟨u, hu⟩
          rcases wokenInv u hu with ⟨hc, -⟩
          omega
      · dsimp only
        intro hcon
        exfalso
        by_cases hzero : s.exitCount - 1 = 0
        · rw [if_pos hzero] at hcon
          cases hcon
        · rw [if_neg hzero] at hcon
          cases hcon
      · dsimp only
        intro hdn _
        by_cases hzero : s.exitCount - 1 = 0
        · rw [hdec0] at exitEq
          refine ⟨hzero, by omega⟩
        · exfalso
          rw [if_neg hzero] at hdn
          cases hdn
  | dtorEnterSmall hd hn =>
      refine ⟨waitEq, waitLt, ?_, idleInv, waitingInv, wokenInv, oneIdle, ?_, ?_, ?_⟩
      · dsimp only
        have h1 : cvDtorDec n CVDtor.done = 0 := by
          unfold cvDtorDec
          rw [if_pos hn]
        rw [h1]
        rw [hd, cvDtorDec_notCalled] at exitEq
        exact exitEq
      · dsimp only
        intro hdis
        rcases hdis with hcon | hcon <;> cases hcon
      · dsimp only
        intro hcon
        cases hcon
      · dsimp only
        intro _ h2n
        exfalso
        omega
  | dtorFinish hd =>
      rcases dtorBlocked (Or.inr hd) with ⟨hr, hn2⟩
      refine ⟨waitEq, waitLt, ?_, idleInv, waitingInv, wokenInv, ?_, ?_, ?_, ?_⟩
      · dsimp only
        rw [cvDtorDec_of_ne n hn2 (by decide)]
        rw [cvDtorDec_of_ne n hn2 (by rw [hd]; decide)] at exitEq
        exact exitEq
      · dsimp only
        intro hn1
        exfalso
        omega
      · dsimp only
        intro hdis
        rcases hdis with hcon | hcon <;> cases hcon
      · dsimp only
        intro hcon
        cases hcon
      · dsimp only
        intro _ _
        exact dtorWoken hd

/-- Every reachable state of the condvar barrier satisfies the invariant. -/
theorem cvReach_inv {n : Nat} {s : CVState n} (h : CVReach n s) : CVInv n s := by
  induction h with
  | refl => exact cvInv_init n
  | tail _ hbc ih => exact cvInv_step hbc ih

/-! ### A full round of the condvar barrier, from quiet state to quiet state -/

theorem cvStep_cast {n : Nat} {s a b : CVState n} (h : CVStep n s a) (hab : a = b) :
    CVStep n s b := hab ▸ h

theorem cv_write_stage (n k j : Nat) (hj : j ≤ n) :
    Relation.ReflTransGen (CVStep n) (cvQuiet n k)
      { cvQuiet n k with writes := fun t => if t.val < j then k + 1 else k } := by
  induction j with
  | zero =>
      have he : ({ cvQuiet n k with
          writes := fun t : Fin n => if t.val < 0 then k + 1 else k } : CVState n)
          = cvQuiet n k := by
        ext t <;> simp [cvQuiet]
      rw [he]
  | succ j ih =>
      have hjn : j < n := by omega
      apply Relation.ReflTransGen.tail (ih (by omega))
      have hstep := CVStep.write (n := n)
        { cvQuiet n k with writes := fun t : Fin n => if t.val < j then k + 1 else k }
        ⟨j, hjn⟩ rfl (by dsimp only; rw [if_neg (Nat.lt_irrefl j)]; rfl) rfl
      have hrec : ({ ({ cvQuiet n k with
            writes := fun t : Fin n => if t.val < j then k + 1 else k } : CVState n) with
          writes := Function.update
            (fun t : Fin n => if t.val < j then k + 1 else k) ⟨j, hjn⟩
            ((if (j : Nat) < j then k + 1 else k) + 1) } : CVState n)
          = { cvQuiet n k with
              writes := fun t : Fin n => if t.val < j + 1 then k + 1 else k } := by
        apply CVState.ext <;> try rfl
        funext t
        dsimp only
        rcases eq_or_ne t ⟨j, hjn⟩ with ht | ht
        · subst ht
          rw [Function.update_same, if_neg (Nat.lt_irrefl j),
            if_pos (Nat.lt_succ_self j)]
        · rw [Function.update_noteq ht]
          have hv : t.val ≠ j := fun hc => ht (Fin.ext hc)
          split_ifs <;> omega
      rwa [hrec] at hstep

theorem cv_arrive_stage (n k j : Nat) (hj : j + 1 ≤ n) :
    Relation.ReflTransGen (CVStep n) (cvQuiet n k)
      { cvQuiet n k with
          waitCount := j
          phase := fun t => if t.val < j then CVPhase.waiting else CVPhase.idle
          writes := fun _ => k + 1 } := by
  induction j with
  | zero =>
      have he : ({ cvQuiet n k with
          waitCount := 0
          phase := fun t : Fin n => if t.val < 0 then CVPhase.waiting else CVPhase.idle
          writes := fun _ : Fin n => k + 1 } : CVState n)
          = { cvQuiet n k with
              writes := fun t : Fin n => if t.val < n then k + 1 else k } := by
        apply CVState.ext <;> try rfl
        funext t
        dsimp only
        rw [if_pos t.isLt]
      rw [he]
      exact cv_write_stage n k n (le_refl n)
  | succ j ih =>
      apply Relation.ReflTransGen.tail (ih (by omega))
      have hjn : j < n := by omega
      have hstep := CVStep.arriveNonLast (n := n)
        { cvQuiet n k with
            waitCount := j
            phase := fun t : Fin n => if t.val < j then CVPhase.waiting else CVPhase.idle
            writes := fun _ : Fin n => k + 1 }
        ⟨j, hjn⟩ (by dsimp only; rw [if_neg (Nat.lt_irrefl j)]) rfl rfl
        (by show j + 1 ≠ n; omega)
      have hrec : ({ ({ cvQuiet n k with
            waitCount := j
            phase := fun t : Fin n => if t.val < j then CVPhase.waiting else CVPhase.idle
            writes := fun _ : Fin n => k + 1 } : CVState n) with
          waitCount := j + 1
          phase := Function.update
            (fun t : Fin n => if t.val < j then CVPhase.waiting else CVPhase.idle)
            ⟨j, hjn⟩ CVPhase.waiting } : CVState n)
          = { cvQuiet n k with
              waitCount := j + 1
              phase := fun t : Fin n => if t.val < j + 1 then CVPhase.waiting
                else CVPhase.idle
              writes := fun _ : Fin n => k + 1 } := by
        apply CVState.ext <;> try rfl
        funext t
        dsimp only
        rcases eq_or_ne t ⟨j, hjn⟩ with ht | ht
        · subst ht
          rw [Function.update_same, if_pos (Nat.lt_succ_self j)]
        · rw [Function.update_noteq ht]
          have hv : t.val ≠ j := fun hc => ht (Fin.ext hc)
          try dsimp only
          split_ifs <;> first | rfl | omega
      rwa [hrec] at hstep

theorem cv_exit_stage (n k j : Nat) (hj : j + 1 ≤ n) :
    Relation.ReflTransGen (CVStep n) (cvQuiet n k)
      { waitCount := 0
        exitCount := (n : Int) - j
        phase := fun t => if j ≤ t.val ∧ t.val + 1 < n then CVPhase.woken
          else CVPhase.idle
        completed := fun t => if t.val < j then k + 1
          else if t.val + 1 < n then k else k + 1
        writes := fun _ => k + 1
        rounds := k + 1
        dtor := CVDtor.notCalled } := by
  induction j with
  | zero =>
      apply Relation.ReflTransGen.tail (cv_arrive_stage n k (n - 1) (by omega))
      refine cvStep_cast (CVStep.arriveLast (n := n)
        { cvQuiet n k with
            waitCount := n - 1
            phase := fun t : Fin n => if t.val < n - 1 then CVPhase.waiting
              else CVPhase.idle
            writes := fun _ : Fin n => k + 1 }
        ⟨n - 1, by omega⟩ (by dsimp only; rw [if_neg (Nat.lt_irrefl _)]) rfl rfl
        (by show n - 1 + 1 = n; omega)) ?_
      apply CVState.ext <;> try rfl
      · show ((n : Int) + 1) - 1 = (n : Int) - ((0 : Nat) : Int)
        push_cast
        ring
      · funext u
        dsimp only
        by_cases hv : u.val < n - 1
        · rw [if_pos hv, if_pos (show CVPhase.waiting = CVPhase.waiting from rfl),
            if_pos (show (0 : Nat) ≤ u.val ∧ u.val + 1 < n
              from ⟨Nat.zero_le _, by omega⟩)]
        · rw [if_neg hv, if_neg (show CVPhase.idle ≠ CVPhase.waiting by decide),
            if_neg (show ¬((0 : Nat) ≤ u.val ∧ u.val + 1 < n) by
              intro hc
              omega)]
      · funext t
        dsimp only [cvQuiet]
        rcases eq_or_ne t ⟨n - 1, by omega⟩ with ht | ht
        · subst ht
          rw [Function.update_same]
          dsimp only
          rw [if_neg (Nat.not_lt_zero _), if_neg (show ¬(n - 1 + 1 < n) by omega)]
        · rw [Function.update_noteq ht]
          have hv : t.val ≠ n - 1 := fun hc => ht (Fin.ext hc)
          have hlt := t.isLt
          rw [if_neg (Nat.not_lt_zero _), if_pos (show t.val + 1 < n by omega)]
      · dsimp only [cvQuiet]
        rw [if_neg (show ¬(((n : Int) + 1) - 1 = 0 ∧
            CVDtor.notCalled = CVDtor.waitingExit) by
          intro hc
          exact absurd hc.2 (by decide))]
  | succ j ih =>
      apply Relation.ReflTransGen.tail (ih (by omega))
      have hjn : j < n := by omega
      refine cvStep_cast (CVStep.exitWoken (n := n)
        { waitCount := 0
          exitCount := (n : Int) - j
          phase := fun t : Fin n => if j ≤ t.val ∧ t.val + 1 < n then CVPhase.woken
            else CVPhase.idle
          completed := fun t : Fin n => if t.val < j then k + 1
            else if t.val + 1 < n then k else k + 1
          writes := fun _ : Fin n => k + 1
          rounds := k + 1
          dtor := CVDtor.notCalled }
        ⟨j, hjn⟩ (by
          dsimp only
          rw [if_pos (show j ≤ j ∧ j + 1 < n from ⟨le_refl j, by omega⟩)])) ?_
      apply CVState.ext <;> try rfl
      · show ((n : Int) - ((j : Nat) : Int)) - 1 = (n : Int) - (((j + 1 : Nat)) : Int)
        push_cast
        ring
      · funext t
        dsimp only
        rcases eq_or_ne t ⟨j, hjn⟩ with ht | ht
        · subst ht
          rw [Function.update_same]
          dsimp only
          rw [if_neg (show ¬(j + 1 ≤ j ∧ j + 1 < n) by intro hc; omega)]
        · rw [Function.update_noteq ht]
          have hv : t.val ≠ j := fun hc => ht (Fin.ext hc)
          try dsimp only
          split_ifs <;> first | rfl | omega
      · funext t
        dsimp only
        rcases eq_or_ne t ⟨j, hjn⟩ with ht | ht
        · subst ht
          rw [Function.update_same]
          dsimp only
          rw [if_neg (Nat.lt_irrefl j), if_pos (show j + 1 < n by omega),
            if_pos (Nat.lt_succ_self j)]
        · rw [Function.update_noteq ht]
          have hv : t.val ≠ j := fun hc => ht (Fin.ext hc)
          try dsimp only
          split_ifs <;> omega
      · dsimp only
        rw [if_neg (show ¬(((n : Int) - ((j : Nat) : Int)) - 1 = 0 ∧
            CVDtor.notCalled = CVDtor.waitingExit) by
          intro hc
          exact absurd hc.2 (by decide))]

theorem cv_round (n k : Nat) (hn : 0 < n) :
    Relation.ReflTransGen (CVStep n) (cvQuiet n k) (cvQuiet n (k + 1)) := by
  have h := cv_exit_stage n k (n - 1) (by omega)
  have he : ({ waitCount := 0
               exitCount := (n : Int) - (n - 1 : Nat)
               phase := fun t : Fin n => if (n - 1 : Nat) ≤ t.val ∧ t.val + 1 < n
                 then CVPhase.woken else CVPhase.idle
               completed := fun t : Fin n => if t.val < n - 1 then k + 1
                 else if t.val + 1 < n then k else k + 1
               writes := fun _ : Fin n => k + 1
               rounds := k + 1
               dtor := CVDtor.notCalled } : CVState n) = cvQuiet n (k + 1) := by
    apply CVState.ext <;> try rfl
    · show (n : Int) - (n - 1 : Nat) = 1
      omega
    · funext t
      show (if (n - 1 : Nat) ≤ t.val ∧ t.val + 1 < n then CVPhase.woken
        else CVPhase.idle) = CVPhase.idle
      rw [if_neg (show ¬((n - 1 : Nat) ≤ t.val ∧ t.val + 1 < n) by
        intro hc
        omega)]
    · funext t
      show (if t.val < n - 1 then k + 1
        else if t.val + 1 < n then k else k + 1) = k + 1
      have hlt := t.isLt
      split_ifs <;> omega
  rw [he] at h
  exact h

/-- From a fresh barrier with a positive participant count, any number of
consecutive rounds can complete on the same instance. -/
theorem cvQuiet_reach (n : Nat) (hn : 0 < n) (k : Nat) : CVReach n (cvQuiet n k) := by
  induction k with
  | zero => exact Relation.ReflTransGen.refl
  | succ k ih => exact Relation.ReflTransGen.trans ih (cv_round n k hn)

/-! ### Windows invariant -/

theorem wphase_partition {n : Nat} (f : Fin n → WPhase) :
    cnt f .idle + cnt f .preBlock1 + cnt f .releasing1 + cnt f .mid +
      cnt f .preBlock2 + cnt f .releasing2 = n := by
  unfold cnt
  simp only [Finset.card_filter]
  rw [← Finset.sum_add_distrib, ← Finset.sum_add_distrib, ← Finset.sum_add_distrib,
    ← Finset.sum_add_distrib, ← Finset.sum_add_distrib]
  have h1 : ∑ _t : Fin n, (1 : Nat) = n := by simp
  conv_rhs => rw [← h1]
  apply Finset.sum_congr rfl
  intro t _
  cases hf : f t <;> simp [hf]

theorem winStep_cast {n : Nat} {s a b : WinState n} (h : WinStep n s a)
    (hab : a = b) : WinStep n s b := hab ▸ h

theorem arrInv_move {n : Nat} {ph : Fin n → WPhase} {ar co : Fin n → Nat}
    {t : Fin n} {q : WPhase}
    (h : ∀ u, (ph u = .idle → ar u = co u) ∧ (ph u ≠ .idle → ar u = co u + 1))
    (hpt : ph t ≠ .idle) (hq : q ≠ .idle) :
    ∀ u, (Function.update ph t q u = .idle → ar u = co u) ∧
      (Function.update ph t q u ≠ .idle → ar u = co u + 1) := by
  intro u
  by_cases hut : u = t
  · subst hut
    rw [Function.update_same]
    exact ⟨fun hc => absurd hc hq, fun _ => (h u).2 hpt⟩
  · rw [Function.update_noteq hut]
    exact h u

theorem arrInv_arrive {n : Nat} {ph : Fin n → WPhase} {ar co : Fin n → Nat}
    {t : Fin n} {q : WPhase}
    (h : ∀ u, (ph u = .idle → ar u = co u) ∧ (ph u ≠ .idle → ar u = co u + 1))
    (hpt : ph t = .idle) (hq : q ≠ .idle) :
    ∀ u, (Function.update ph t q u = .idle →
        Function.update ar t (ar t + 1) u = co u) ∧
      (Function.update ph t q u ≠ .idle →
        Function.update ar t (ar t + 1) u = co u + 1) := by
  intro u
  by_cases hut : u = t
  · subst hut
    rw [Function.update_same, Function.update_same]
    refine ⟨fun hc => absurd hc hq, fun _ => ?_⟩
    rw [(h u).1 hpt]
  · rw [Function.update_noteq hut, Function.update_noteq hut]
    exact h u

theorem arrInv_exit {n : Nat} {ph : Fin n → WPhase} {ar co : Fin n → Nat}
    {t : Fin n}
    (h : ∀ u, (ph u = .idle → ar u = co u) ∧ (ph u ≠ .idle → ar u = co u + 1))
    (hpt : ph t ≠ .idle) :
    ∀ u, (Function.update ph t .idle u = .idle →
        ar u = Function.update co t (co t + 1) u) ∧
      (Function.update ph t .idle u ≠ .idle →
        ar u = Function.update co t (co t + 1) u + 1) := by
  intro u
  by_cases hut : u = t
  · subst hut
    rw [Function.update_same, Function.update_same]
    exact ⟨fun _ => (h u).2 hpt, fun hc => absurd rfl hc⟩
  · rw [Function.update_noteq hut, Function.update_noteq hut]
    exact h u

theorem winInv_init (n : Nat) : WinInv n (WinInit n) := by
  have hz : ∀ p : WPhase, p ≠ WPhase.idle → cnt (WinInit n).phase p = 0 := by
    intro p hp
    apply cnt_eq_zero.mpr
    intro t hc
    exact hp hc.symm
  refine ⟨?_, ?_, ?_, ?_, ?_, ?_⟩
  · intro _
    exact ⟨fun _ => rfl, rfl, rfl, rfl, rfl, rfl, fun _ => ⟨rfl, rfl⟩⟩
  · rw [hz _ (by decide), hz _ (by decide), hz _ (by decide)]
    rfl
  · intro t
    exact ⟨fun _ => rfl, fun hc => absurd rfl hc⟩
  · exact ⟨le_refl _, Nat.le_succ 0⟩
  · intro _
    refine ⟨hz _ (by decide), hz _ (by decide), rfl, ?_, ?_, ?_, ?_⟩
    · intro hnpos
      show (0 : Int) + 1 ≤ (n : Int)
      omega
    · intro t
      refine ⟨fun _ => rfl, fun hc => ?_, fun hc => ?_, fun hc => ?_⟩ <;> cases hc
    · intro _
      exact (hz _ (by decide)).symm
    · intro hc
      exact absurd (hz _ (by decide)) hc
  · intro hcon
    cases hcon

theorem winInv_step {n : Nat} {s s' : WinState n} (h : WinStep n s s')
    (inv : WinInv n s) : WinInv n s' := by
  obtain ⟨small, waitEq, arr, rle, k0, k1⟩ := inv
  have hsplit : s.r1 = s.r2 ∨ s.r1 = s.r2 + 1 := by omega
  cases h with
  | addArriveNonLast t hp hd hn hlim =>
      have hk0r : s.r1 = s.r2 := by
        rcases hsplit with h0 | h1
        · exact h0
        · exact absurd hp ((k1 h1).1 t).2.1
      obtain ⟨hL1, hM, hsem1, hwlt, hrounds, hL2z, hL2nz⟩ := k0 hk0r
      have hcW1 : cnt (Function.update s.phase t WPhase.preBlock1) WPhase.preBlock1
          = cnt s.phase WPhase.preBlock1 + 1 :=
        cnt_update_ne_eq (by rw [hp]; decide) rfl
      have hcL1 : cnt (Function.update s.phase t WPhase.preBlock1) WPhase.releasing1
          = cnt s.phase WPhase.releasing1 :=
        cnt_update_ne_ne (by rw [hp]; decide) (by decide)
      have hcM : cnt (Function.update s.phase t WPhase.preBlock1) WPhase.mid
          = cnt s.phase WPhase.mid :=
        cnt_update_ne_ne (by rw [hp]; decide) (by decide)
      have hcW2 : cnt (Function.update s.phase t WPhase.preBlock1) WPhase.preBlock2
          = cnt s.phase WPhase.preBlock2 :=
        cnt_update_ne_ne (by rw [hp]; decide) (by decide)
      have hcL2 : cnt (Function.update s.phase t WPhase.preBlock1) WPhase.releasing2
          = cnt s.phase WPhase.releasing2 :=
        cnt_update_ne_ne (by rw [hp]; decide) (by decide)
      refine ⟨?_, ?_, ?_, rle, ?_, ?_⟩
      · intro hsm
        exact absurd hn (by omega)
      · dsimp only
        rw [hcW1, hcL1, hcM]
        omega
      · exact arrInv_arrive arr hp (by decide)
      · dsimp only
        intro _
        refine ⟨by rw [hcL1]; exact hL1, by rw [hcM]; exact hM, hsem1, ?_, ?_, ?_, ?_⟩
        · intro hnpos
          have := hwlt hnpos
          omega
        · intro u
          by_cases hut : u = t
          · subst hut
            rw [Function.update_same, Function.update_same]
            refine ⟨fun hc => (by cases hc), fun _ => ?_, fun hc => (by cases hc),
              fun hc => (by cases hc)⟩
            rw [(hrounds u).1 hp]
          · rw [Function.update_noteq hut, Function.update_noteq hut]
            exact hrounds u
        · intro h0
          rw [hcW2]
          rw [hcL2] at h0
          exact hL2z h0
        · intro h0
          exfalso
          rw [hcL2] at h0
          rcases hL2nz h0 with ⟨-, -, hidle, -, -⟩
          have := cnt_pos hp
          omega
      · dsimp only
        intro hcon
        try dsimp only at hcon
        exfalso
        omega
  | addArriveLast t hp hd hn hlim =>
      have hk0r : s.r1 = s.r2 := by
        rcases hsplit with h0 | h1
        · exact h0
        · exact absurd hp ((k1 h1).1 t).2.1
      obtain ⟨hL1, hM, hsem1, hwlt, hrounds, hL2z, hL2nz⟩ := k0 hk0r
      have hW1n : cnt s.phase WPhase.preBlock1 + 1 = n := by
        rw [hL1, hM] at waitEq
        omega
      have hall : ∀ u, u ≠ t → s.phase u = WPhase.preBlock1 :=
        all_but_of_cnt (by rw [hp]; decide) hW1n
      have hW2z : cnt s.phase WPhase.preBlock2 = 0 := by
        apply cnt_eq_zero.mpr
        intro u
        by_cases hut : u = t
        · subst hut
          rw [hp]
          decide
        · rw [hall u hut]
          decide
      have hL2zero : cnt s.phase WPhase.releasing2 = 0 := by
        apply cnt_eq_zero.mpr
        intro u
        by_cases hut : u = t
        · subst hut
          rw [hp]
          decide
        · rw [hall u hut]
          decide
      have hcW1 : cnt (Function.update s.phase t WPhase.releasing1) WPhase.preBlock1
          = cnt s.phase WPhase.preBlock1 :=
        cnt_update_ne_ne (by rw [hp]; decide) (by decide)
      have hcL1 : cnt (Function.update s.phase t WPhase.releasing1) WPhase.releasing1
          = cnt s.phase WPhase.releasing1 + 1 :=
        cnt_update_ne_eq (by rw [hp]; decide) rfl
      have hcM : cnt (Function.update s.phase t WPhase.releasing1) WPhase.mid
          = cnt s.phase WPhase.mid :=
        cnt_update_ne_ne (by rw [hp]; decide) (by decide)
      have hcW2 : cnt (Function.update s.phase t WPhase.releasing1) WPhase.preBlock2
          = cnt s.phase WPhase.preBlock2 :=
        cnt_update_ne_ne (by rw [hp]; decide) (by decide)
      refine ⟨?_, ?_, ?_, ?_, ?_, ?_⟩
      · intro hsm
        exact absurd hn (by omega)
      · dsimp only
        rw [hcW1, hcL1, hcM]
        omega
      · exact arrInv_arrive arr hp (by decide)
      · dsimp only
        omega
      · dsimp only
        intro hcon
        try dsimp only at hcon
        exfalso
        omega
      · dsimp only
        intro _
        refine ⟨?_, ?_, ?_, ?_⟩
        · intro u
          by_cases hut : u = t
          · subst hut
            rw [Function.update_same, Function.update_same]
            exact ⟨by rw [(hrounds u).1 hp], by decide, by decide⟩
          · rw [Function.update_noteq hut, Function.update_noteq hut]
            have hpu := hall u hut
            exact ⟨(hrounds u).2.1 hpu, by rw [hpu]; decide, by rw [hpu]; decide⟩
        · have h2 := hL2z hL2zero
          rw [hW2z] at h2
          exact h2
        · intro _
          refine ⟨?_, ?_, hsem1, ?_, ?_, ?_⟩
          · rw [hcL1, hL1]
          · rw [hcW1]
            exact hW1n
          · rw [hcM]
            exact hM
          · rw [hcW2]
            exact hW2z
          · exact hlim
        · intro hcon
          exfalso
          rw [hcL1, hL1] at hcon
          omega
  | release1 t hp hd =>
      have hk1r : s.r1 = s.r2 + 1 := by
        rcases hsplit with h0 | h1
        · exfalso
          have hz := (k0 h0).1
          have := cnt_pos hp
          omega
        · exact h1
      obtain ⟨hall, hsem2, hL1nz, hL1z⟩ := k1 hk1r
      obtain ⟨hL1one, hW1n, hsem1, hM, hW2, hwc⟩ :=
        hL1nz (by have := cnt_pos hp; omega)
      have hcW1 : cnt (Function.update s.phase t WPhase.mid) WPhase.preBlock1
          = cnt s.phase WPhase.preBlock1 :=
        cnt_update_ne_ne (by rw [hp]; decide) (by decide)
      have hcL1 : cnt (Function.update s.phase t WPhase.mid) WPhase.releasing1 + 1
          = cnt s.phase WPhase.releasing1 :=
        cnt_update_eq_ne hp (by decide)
      have hcM : cnt (Function.update s.phase t WPhase.mid) WPhase.mid
          = cnt s.phase WPhase.mid + 1 :=
        cnt_update_ne_eq (by rw [hp]; decide) rfl
      refine ⟨?_, ?_, ?_, rle, ?_, ?_⟩
      · intro hsm
        exfalso
        have h0 := (small hsm).1 t
        rw [h0] at hp
        cases hp
      · dsimp only
        rw [hcW1, hcM]
        omega
      · exact arrInv_move arr (by rw [hp]; decide) (by decide)
      · dsimp only
        intro hcon
        try dsimp only at hcon
        exfalso
        omega
      · dsimp only
        intro _
        refine ⟨?_, hsem2, ?_, ?_⟩
        · intro u
          by_cases hut : u = t
          · subst hut
            rw [Function.update_same]
            exact ⟨(hall u).1, by decide, by decide⟩
          · rw [Function.update_noteq hut]
            exact hall u
        · intro hcon
          exfalso
          omega
        · intro _
          constructor
          · rw [hcW1]
            omega
          · have := t.pos
            omega
  | block1 t hp hd hs =>
      have hk1r : s.r1 = s.r2 + 1 := by
        rcases hsplit with h0 | h1
        · exfalso
          have hs1 := (k0 h0).2.2.1
          omega
        · exact h1
      obtain ⟨hall, hsem2, hL1nz, hL1z⟩ := k1 hk1r
      have hL1zero : cnt s.phase WPhase.releasing1 = 0 := by
        by_contra hcon
        rcases hL1nz hcon with ⟨-, -, hsem1, -, -, -⟩
        omega
      obtain ⟨hsem1W, hwc1⟩ := hL1z hL1zero
      have hcW1 : cnt (Function.update s.phase t WPhase.mid) WPhase.preBlock1 + 1
          = cnt s.phase WPhase.preBlock1 :=
        cnt_update_eq_ne hp (by decide)
      have hcL1 : cnt (Function.update s.phase t WPhase.mid) WPhase.releasing1
          = cnt s.phase WPhase.releasing1 :=
        cnt_update_ne_ne (by rw [hp]; decide) (by decide)
      have hcM : cnt (Function.update s.phase t WPhase.mid) WPhase.mid
          = cnt s.phase WPhase.mid + 1 :=
        cnt_update_ne_eq (by rw [hp]; decide) rfl
      refine ⟨?_, ?_, ?_, rle, ?_, ?_⟩
      · intro hsm
        exfalso
        have h0 := (small hsm).1 t
        rw [h0] at hp
        cases hp
      · dsimp only
        rw [hcL1, hcM]
        omega
      · exact arrInv_move arr (by rw [hp]; decide) (by decide)
      · dsimp only
        intro hcon
        try dsimp only at hcon
        exfalso
        omega
      · dsimp only
        intro _
        refine ⟨?_, hsem2, ?_, ?_⟩
        · intro u
          by_cases hut : u = t
          · subst hut
            rw [Function.update_same]
            exact ⟨(hall u).1, by decide, by decide⟩
          · rw [Function.update_noteq hut]
            exact hall u
        · intro hcon
          exfalso
          rw [hcL1] at hcon
          exact hcon hL1zero
        · intro _
          constructor
          · omega
          · exact hwc1
  | addExitNonLast t hp hd hlim =>
      have hk1r : s.r1 = s.r2 + 1 := by
        rcases hsplit with h0 | h1
        · exfalso
          have hz := (k0 h0).2.1
          have := cnt_pos hp
          omega
        · exact h1
      obtain ⟨hall, hsem2, hL1nz, hL1z⟩ := k1 hk1r
      have hL1zero : cnt s.phase WPhase.releasing1 = 0 := by
        by_contra hcon
        rcases hL1nz hcon with ⟨-, -, -, hM0, -, -⟩
        have := cnt_pos hp
        omega
      obtain ⟨hsem1W, hwc1⟩ := hL1z hL1zero
      have hcW1 : cnt (Function.update s.phase t WPhase.preBlock2) WPhase.preBlock1
          = cnt s.phase WPhase.preBlock1 :=
        cnt_update_ne_ne (by rw [hp]; decide) (by decide)
      have hcL1 : cnt (Function.update s.phase t WPhase.preBlock2) WPhase.releasing1
          = cnt s.phase WPhase.releasing1 :=
        cnt_update_ne_ne (by rw [hp]; decide) (by decide)
      have hcM : cnt (Function.update s.phase t WPhase.preBlock2) WPhase.mid + 1
          = cnt s.phase WPhase.mid :=
        cnt_update_eq_ne hp (by decide)
      refine ⟨?_, ?_, ?_, rle, ?_, ?_⟩
      · intro hsm
        exfalso
        have h0 := (small hsm).1 t
        rw [h0] at hp
        cases hp
      · dsimp only
        rw [hcW1, hcL1]
        omega
      · exact arrInv_move arr (by rw [hp]; decide) (by decide)
      · dsimp only
        intro hcon
        try dsimp only at hcon
        exfalso
        omega
      · dsimp only
        intro _
        refine ⟨?_, hsem2, ?_, ?_⟩
        · intro u
          by_cases hut : u = t
          · subst hut
            rw [Function.update_same]
            exact ⟨(hall u).1, by decide, by decide⟩
          · rw [Function.update_noteq hut]
            exact hall u
        · intro hcon
          exfalso
          rw [hcL1] at hcon
          exact hcon hL1zero
        · intro _
          refine ⟨by rw [hcW1]; exact hsem1W, by omega⟩
  | addExitLast t hp hd hlim =>
      have hk1r : s.r1 = s.r2 + 1 := by
        rcases hsplit with h0 | h1
        · exfalso
          have hz := (k0 h0).2.1
          have := cnt_pos hp
          omega
        · exact h1
      obtain ⟨hall, hsem2, hL1nz, hL1z⟩ := k1 hk1r
      have hL1zero : cnt s.phase WPhase.releasing1 = 0 := by
        by_contra hcon
        rcases hL1nz hcon with ⟨-, -, -, hM0, -, -⟩
        have := cnt_pos hp
        omega
      obtain ⟨hsem1W, hwc1⟩ := hL1z hL1zero
      have hMpos := cnt_pos hp
      have hM1 : cnt s.phase WPhase.mid = 1 := by
        rw [hL1zero] at waitEq
        omega
      have hW1zero : cnt s.phase WPhase.preBlock1 = 0 := by
        rw [hL1zero] at waitEq
        omega
      have hIzero : cnt s.phase WPhase.idle = 0 :=
        cnt_eq_zero.mpr fun u => (hall u).2.1
      have hL2zero : cnt s.phase WPhase.releasing2 = 0 :=
        cnt_eq_zero.mpr fun u => (hall u).2.2
      have hpart := wphase_partition s.phase
      have hW2n : cnt s.phase WPhase.preBlock2 + 1 = n := by
        omega
      have hallW2 : ∀ u, u ≠ t → s.phase u = WPhase.preBlock2 := by
        intro u hut
        cases hq : s.phase u with
        | idle => exact absurd (cnt_pos hq) (by omega)
        | preBlock1 => exact absurd (cnt_pos hq) (by omega)
        | releasing1 => exact absurd (cnt_pos hq) (by omega)
        | mid => exact absurd (cnt_unique (by omega) hp hq) (Ne.symm hut)
        | preBlock2 => rfl
        | releasing2 => exact absurd (cnt_pos hq) (by omega)
      have hcW1 : cnt (Function.update s.phase t WPhase.releasing2) WPhase.preBlock1
          = cnt s.phase WPhase.preBlock1 :=
        cnt_update_ne_ne (by rw [hp]; decide) (by decide)
      have hcL1 : cnt (Function.update s.phase t WPhase.releasing2) WPhase.releasing1
          = cnt s.phase WPhase.releasing1 :=
        cnt_update_ne_ne (by rw [hp]; decide) (by decide)
      have hcM : cnt (Function.update s.phase t WPhase.releasing2) WPhase.mid + 1
          = cnt s.phase WPhase.mid :=
        cnt_update_eq_ne hp (by decide)
      have hcW2 : cnt (Function.update s.phase t WPhase.releasing2) WPhase.preBlock2
          = cnt s.phase WPhase.preBlock2 :=
        cnt_update_ne_ne (by rw [hp]; decide) (by decide)
      have hcL2 : cnt (Function.update s.phase t WPhase.releasing2) WPhase.releasing2
          = cnt s.phase WPhase.releasing2 + 1 :=
        cnt_update_ne_eq (by rw [hp]; decide) rfl
      have hcI : cnt (Function.update s.phase t WPhase.releasing2) WPhase.idle
          = cnt s.phase WPhase.idle :=
        cnt_update_ne_ne (by rw [hp]; decide) (by decide)
      refine ⟨?_, ?_, ?_, ?_, ?_, ?_⟩
      · intro hsm
        exfalso
        have h0 := (small hsm).1 t
        rw [h0] at hp
        cases hp
      · dsimp only
        rw [hcW1, hcL1]
        omega
      · exact arrInv_move arr (by rw [hp]; decide) (by decide)
      · dsimp only
        omega
      · dsimp only
        intro _
        refine ⟨by rw [hcL1]; exact hL1zero, by omega, by omega, ?_, ?_, ?_, ?_⟩
        · intro hnpos
          omega
        · intro u
          by_cases hut : u = t
          · subst hut
            rw [Function.update_same]
            refine ⟨fun hc => (by cases hc), fun hc => (by cases hc),
              fun hc => (by cases hc), fun _ => (hall u).1⟩
          · rw [Function.update_noteq hut]
            have hpu := hallW2 u hut
            refine ⟨fun hc => ?_, fun hc => ?_, fun _ => (hall u).1, fun hc => ?_⟩
            · rw [hpu] at hc
              cases hc
            · rw [hpu] at hc
              cases hc
            · rw [hpu] at hc
              cases hc
        · intro hcon
          exfalso
          rw [hcL2] at hcon
          omega
        · intro _
          refine ⟨hsem2, by rw [hcW2]; exact hW2n, by rw [hcI]; exact hIzero,
            by rw [hcW1]; exact hW1zero, by rw [hcL2, hL2zero]⟩
      · dsimp only
        intro hcon
        try dsimp only at hcon
        exfalso
        omega
  | release2 t hp hd =>
      have hk0r : s.r1 = s.r2 := by
        rcases hsplit with h0 | h1
        · exact h0
        · exact absurd hp ((k1 h1).1 t).2.2
      obtain ⟨hL1, hM, hsem1, hwlt, hrounds, hL2z, hL2nz⟩ := k0 hk0r
      obtain ⟨hsem2, hW2n, hIzero, hW1zero, hL2one⟩ :=
        hL2nz (by have := cnt_pos hp; omega)
      have hcW1 : cnt (Function.update s.phase t WPhase.idle) WPhase.preBlock1
          = cnt s.phase WPhase.preBlock1 :=
        cnt_update_ne_ne (by rw [hp]; decide) (by decide)
      have hcL1 : cnt (Function.update s.phase t WPhase.idle) WPhase.releasing1
          = cnt s.phase WPhase.releasing1 :=
        cnt_update_ne_ne (by rw [hp]; decide) (by decide)
      have hcM : cnt (Function.update s.phase t WPhase.idle) WPhase.mid
          = cnt s.phase WPhase.mid :=
        cnt_update_ne_ne (by rw [hp]; decide) (by decide)
      have hcW2 : cnt (Function.update s.phase t WPhase.idle) WPhase.preBlock2
          = cnt s.phase WPhase.preBlock2 :=
        cnt_update_ne_ne (by rw [hp]; decide) (by decide)
      have hcL2 : cnt (Function.update s.phase t WPhase.idle) WPhase.releasing2 + 1
          = cnt s.phase WPhase.releasing2 :=
        cnt_update_eq_ne hp (by decide)
      refine ⟨?_, ?_, ?_, rle, ?_, ?_⟩
      · intro hsm
        exfalso
        have h0 := (small hsm).1 t
        rw [h0] at hp
        cases hp
      · dsimp only
        rw [hcW1, hcL1, hcM]
        exact waitEq
      · exact arrInv_exit arr (by rw [hp]; decide)
      · dsimp only
        intro _
        refine ⟨by rw [hcL1]; exact hL1, by rw [hcM]; exact hM, hsem1, hwlt, ?_, ?_, ?_⟩
        · intro u
          by_cases hut : u = t
          · subst hut
            rw [Function.update_same]
            refine ⟨fun _ => (hrounds u).2.2.2 hp, fun hc => (by cases hc),
              fun hc => (by cases hc), fun hc => (by cases hc)⟩
          · rw [Function.update_noteq hut]
            exact hrounds u
        · intro _
          rw [hcW2]
          omega
        · intro hcon
          exfalso
          omega
      · dsimp only
        intro hcon
        try dsimp only at hcon
        exfalso
        omega
  | block2 t hp hd hs =>
      have hk0r : s.r1 = s.r2 := by
        rcases hsplit with h0 | h1
        · exact h0
        · exfalso
          have := (k1 h1).2.1
          omega
      obtain ⟨hL1, hM, hsem1, hwlt, hrounds, hL2z, hL2nz⟩ := k0 hk0r
      have hL2zero : cnt s.phase WPhase.releasing2 = 0 := by
        by_contra hcon
        rcases hL2nz hcon with ⟨hsem2, -⟩
        omega
      have hsem2W := hL2z hL2zero
      have hcW1 : cnt (Function.update s.phase t WPhase.idle) WPhase.preBlock1
          = cnt s.phase WPhase.preBlock1 :=
        cnt_update_ne_ne (by rw [hp]; decide) (by decide)
      have hcL1 : cnt (Function.update s.phase t WPhase.idle) WPhase.releasing1
          = cnt s.phase WPhase.releasing1 :=
        cnt_update_ne_ne (by rw [hp]; decide) (by decide)
      have hcM : cnt (Function.update s.phase t WPhase.idle) WPhase.mid
          = cnt s.phase WPhase.mid :=
        cnt_update_ne_ne (by rw [hp]; decide) (by decide)
      have hcW2 : cnt (Function.update s.phase t WPhase.idle) WPhase.preBlock2 + 1
          = cnt s.phase WPhase.preBlock2 :=
        cnt_update_eq_ne hp (by decide)
      have hcL2 : cnt (Function.update s.phase t WPhase.idle) WPhase.releasing2
          = cnt s.phase WPhase.releasing2 :=
        cnt_update_ne_ne (by rw [hp]; decide) (by decide)
      refine ⟨?_, ?_, ?_, rle, ?_, ?_⟩
      · intro hsm
        exfalso
        have h0 := (small hsm).1 t
        rw [h0] at hp
        cases hp
      · dsimp only
        rw [hcW1, hcL1, hcM]
        exact waitEq
      · exact arrInv_exit arr (by rw [hp]; decide)
      · dsimp only
        intro _
        refine ⟨by rw [hcL1]; exact hL1, by rw [hcM]; exact hM, hsem1, hwlt, ?_, ?_, ?_⟩
        · intro u
          by_cases hut : u = t
          · subst hut
            rw [Function.update_same]
            refine ⟨fun _ => (hrounds u).2.2.1 hp, fun hc => (by cases hc),
              fun hc => (by cases hc), fun hc => (by cases hc)⟩
          · rw [Function.update_noteq hut]
            exact hrounds u
        · intro _
          omega
        · intro hcon
          exfalso
          rw [hcL2] at hcon
          exact hcon hL2zero
      · dsimp only
        intro hcon
        try dsimp only at hcon
        exfalso
        omega
  | dtor hd =>
      exact ⟨small, waitEq, arr, rle, k0, k1⟩

/-- Every reachable state of the Windows barrier satisfies the invariant. -/
theorem winReach_inv {n : Nat} {s : WinState n} (h : WinReach n s) : WinInv n s := by
  induction h with
  | refl => exact winInv_init n
  | tail _ hbc ih => exact winInv_step hbc ih

/-! ### A full round of the Windows barrier, from quiet state to quiet state -/

theorem win_arrive_stage (n k : Nat) (hn2 : 2 ≤ n) (j : Nat) (hj : j + 1 ≤ n) :
    Relation.ReflTransGen (WinStep n) (winQuiet n k)
      { winQuiet n k with
          waitCount := (j : Int)
          phase := fun t => if t.val < j then WPhase.preBlock1 else WPhase.idle
          arrived := fun t => if t.val < j then k + 1 else k } := by
  induction j with
  | zero =>
      have he : ({ winQuiet n k with
          waitCount := ((0 : Nat) : Int)
          phase := fun t : Fin n => if t.val < 0 then WPhase.preBlock1
            else WPhase.idle
          arrived := fun t : Fin n => if t.val < 0 then k + 1 else k } : WinState n)
          = winQuiet n k := by
        apply WinState.ext <;> rfl
      rw [he]
  | succ j ih =>
      apply Relation.ReflTransGen.tail (ih (by omega))
      have hjn : j < n := by omega
      refine winStep_cast (WinStep.addArriveNonLast _ ⟨j, hjn⟩
        (by dsimp only; rw [if_neg (Nat.lt_irrefl j)]) rfl (by omega)
        (by show (j : Int) + 1 ≠ (n : Int); omega)) ?_
      apply WinState.ext
      · rfl
      · rfl
      · rfl
      · funext t
        try dsimp only
        rcases eq_or_ne t ⟨j, hjn⟩ with ht | ht
        · subst ht
          rw [Function.update_same, if_pos (Nat.lt_succ_self j)]
        · rw [Function.update_noteq ht]
          have hv : t.val ≠ j := fun hc => ht (Fin.ext hc)
          try dsimp only
          split_ifs <;> first | rfl | omega
      · funext t
        try dsimp only
        rcases eq_or_ne t ⟨j, hjn⟩ with ht | ht
        · subst ht
          rw [Function.update_same]
          try dsimp only
          rw [if_neg (Nat.lt_irrefl j), if_pos (Nat.lt_succ_self j)]
        · rw [Function.update_noteq ht]
          have hv : t.val ≠ j := fun hc => ht (Fin.ext hc)
          try dsimp only
          split_ifs <;> omega
      · rfl
      · rfl
      · rfl
      · rfl

theorem win_drain1_stage (n k : Nat) (hn2 : 2 ≤ n) (j : Nat) (hj : j + 1 ≤ n) :
    Relation.ReflTransGen (WinStep n) (winQuiet n k)
      { waitCount := (n : Int) - (j : Int)
        sem1 := n - 1 - j
        sem2 := 0
        phase := fun t => if t.val < j then WPhase.preBlock2
          else if t.val + 1 < n then WPhase.preBlock1 else WPhase.mid
        arrived := fun _ => k + 1
        completed := fun _ => k
        r1 := k + 1
        r2 := k
        destroyed := false } := by
  induction j with
  | zero =>
      have hln : n - 1 < n := by omega
      have h1 := win_arrive_stage n k hn2 (n - 1) (by omega)
      have h2 := Relation.ReflTransGen.tail h1
        (WinStep.addArriveLast _ ⟨n - 1, hln⟩
          (by dsimp only; rw [if_neg (Nat.lt_irrefl _)]) rfl (by omega)
          (by show ((n - 1 : Nat) : Int) + 1 = (n : Int); omega))
      apply Relation.ReflTransGen.tail h2
      refine winStep_cast (WinStep.release1 _ ⟨n - 1, hln⟩
        (by dsimp only; rw [Function.update_same]) rfl) ?_
      apply WinState.ext
      · show ((n - 1 : Nat) : Int) + 1 = (n : Int) - ((0 : Nat) : Int)
        omega
      · show (0 : Nat) + (n - 1) = n - 1 - 0
        omega
      · rfl
      · funext t
        try dsimp only
        rcases eq_or_ne t ⟨n - 1, hln⟩ with ht | ht
        · subst ht
          rw [Function.update_same]
          try dsimp only
          rw [if_neg (Nat.not_lt_zero _), if_neg (show ¬(n - 1 + 1 < n) by omega)]
        · rw [Function.update_noteq ht, Function.update_noteq ht]
          have hv : t.val ≠ n - 1 := fun hc => ht (Fin.ext hc)
          have hlt := t.isLt
          try dsimp only
          rw [if_pos (show t.val < n - 1 by omega), if_neg (Nat.not_lt_zero _),
            if_pos (show t.val + 1 < n by omega)]
      · funext t
        try dsimp only
        rcases eq_or_ne t ⟨n - 1, hln⟩ with ht | ht
        · subst ht
          rw [Function.update_same]
          try dsimp only
          rw [if_neg (Nat.lt_irrefl _)]
        · rw [Function.update_noteq ht]
          have hv : t.val ≠ n - 1 := fun hc => ht (Fin.ext hc)
          have hlt := t.isLt
          try dsimp only
          rw [if_pos (show t.val < n - 1 by omega)]
      · rfl
      · rfl
      · rfl
      · rfl
  | succ j ih =>
      have hjn : j < n := by omega
      apply Relation.ReflTransGen.tail (Relation.ReflTransGen.tail (ih (by omega))
        (WinStep.block1 _ ⟨j, hjn⟩
          (by dsimp only
              rw [if_neg (Nat.lt_irrefl j), if_pos (show j + 1 < n by omega)])
          rfl (by show 0 < n - 1 - j; omega)))
      refine winStep_cast (WinStep.addExitNonLast _ ⟨j, hjn⟩
        (by dsimp only
            rw [Function.update_same]) rfl
        (by show (n : Int) - (j : Int) - 1 ≠ 0; omega)) ?_
      apply WinState.ext
      · show (n : Int) - (j : Int) - 1 = (n : Int) - ((j + 1 : Nat) : Int)
        push_cast
        ring
      · show n - 1 - j - 1 = n - 1 - (j + 1)
        omega
      · rfl
      · funext t
        try dsimp only
        rcases eq_or_ne t ⟨j, hjn⟩ with ht | ht
        · subst ht
          rw [Function.update_same]
          try dsimp only
          rw [if_pos (Nat.lt_succ_self j)]
        · rw [Function.update_noteq ht, Function.update_noteq ht]
          have hv : t.val ≠ j := fun hc => ht (Fin.ext hc)
          try dsimp only
          split_ifs <;> first | rfl | omega
      · rfl
      · rfl
      · rfl
      · rfl
      · rfl

theorem win_drain2_stage (n k : Nat) (hn2 : 2 ≤ n) (j : Nat) (hj : j + 1 ≤ n) :
    Relation.ReflTransGen (WinStep n) (winQuiet n k)
      { waitCount := 0
        sem1 := 0
        sem2 := n - 1 - j
        phase := fun t => if t.val < j ∨ t.val + 1 = n then WPhase.idle
          else WPhase.preBlock2
        arrived := fun _ => k + 1
        completed := fun t => if t.val < j ∨ t.val + 1 = n then k + 1 else k
        r1 := k + 1
        r2 := k + 1
        destroyed := false } := by
  induction j with
  | zero =>
      have hln : n - 1 < n := by omega
      have h1 := win_drain1_stage n k hn2 (n - 1) (by omega)
      have h2 := Relation.ReflTransGen.tail h1
        (WinStep.addExitLast _ ⟨n - 1, hln⟩
          (by dsimp only
              rw [if_neg (Nat.lt_irrefl _), if_neg (show ¬(n - 1 + 1 < n) by omega)])
          rfl
          (by show (n : Int) - ((n - 1 : Nat) : Int) - 1 = 0; omega))
      apply Relation.ReflTransGen.tail h2
      refine winStep_cast (WinStep.release2 _ ⟨n - 1, hln⟩
        (by dsimp only; rw [Function.update_same]) rfl) ?_
      apply WinState.ext
      · show (n : Int) - ((n - 1 : Nat) : Int) - 1 = (0 : Int)
        omega
      · show n - 1 - (n - 1) = (0 : Nat)
        omega
      · show (0 : Nat) + (n - 1) = n - 1 - 0
        omega
      · funext t
        try dsimp only
        rcases eq_or_ne t ⟨n - 1, hln⟩ with ht | ht
        · subst ht
          rw [Function.update_same]
          try dsimp only
          rw [if_pos (Or.inr (show n - 1 + 1 = n by omega))]
        · rw [Function.update_noteq ht, Function.update_noteq ht]
          have hv : t.val ≠ n - 1 := fun hc => ht (Fin.ext hc)
          have hlt := t.isLt
          try dsimp only
          rw [if_pos (show t.val < n - 1 by omega),
            if_neg (show ¬(t.val < 0 ∨ t.val + 1 = n) by omega)]
      · rfl
      · funext t
        try dsimp only
        rcases eq_or_ne t ⟨n - 1, hln⟩ with ht | ht
        · subst ht
          rw [Function.update_same]
          try dsimp only
          rw [if_pos (Or.inr (show n - 1 + 1 = n by omega))]
        · rw [Function.update_noteq ht]
          have hv : t.val ≠ n - 1 := fun hc => ht (Fin.ext hc)
          have hlt := t.isLt
          try dsimp only
          rw [if_neg (show ¬(t.val < 0 ∨ t.val + 1 = n) by omega)]
      · rfl
      · rfl
      · rfl
  | succ j ih =>
      have hjn : j < n := by omega
      apply Relation.ReflTransGen.tail (ih (by omega))
      refine winStep_cast (WinStep.block2 _ ⟨j, hjn⟩
        (by dsimp only
            rw [if_neg (show ¬(j < j ∨ j + 1 = n) by omega)]) rfl
        (by show 0 < n - 1 - j; omega)) ?_
      apply WinState.ext
      · rfl
      · rfl
      · show n - 1 - j - 1 = n - 1 - (j + 1)
        omega
      · funext t
        try dsimp only
        rcases eq_or_ne t ⟨j, hjn⟩ with ht | ht
        · subst ht
          rw [Function.update_same]
          try dsimp only
          rw [if_pos (Or.inl (Nat.lt_succ_self j))]
        · rw [Function.update_noteq ht]
          have hv : t.val ≠ j := fun hc => ht (Fin.ext hc)
          try dsimp only
          split_ifs <;> first | rfl | omega
      · rfl
      · funext t
        try dsimp only
        rcases eq_or_ne t ⟨j, hjn⟩ with ht | ht
        · subst ht
          rw [Function.update_same]
          try dsimp only
          rw [if_neg (show ¬(j < j ∨ j + 1 = n) by omega),
            if_pos (Or.inl (Nat.lt_succ_self j))]
        · rw [Function.update_noteq ht]
          have hv : t.val ≠ j := fun hc => ht (Fin.ext hc)
          try dsimp only
          split_ifs <;> omega
      · rfl
      · rfl
      · rfl

theorem win_round (n k : Nat) (hn2 : 2 ≤ n) :
    Relation.ReflTransGen (WinStep n) (winQuiet n k) (winQuiet n (k + 1)) := by
  have h := win_drain2_stage n k hn2 (n - 1) (by omega)
  have he : ({ waitCount := 0
               sem1 := 0
               sem2 := n - 1 - (n - 1)
               phase := fun t : Fin n => if t.val < n - 1 ∨ t.val + 1 = n
                 then WPhase.idle else WPhase.preBlock2
               arrived := fun _ : Fin n => k + 1
               completed := fun t : Fin n => if t.val < n - 1 ∨ t.val + 1 = n
                 then k + 1 else k
               r1 := k + 1
               r2 := k + 1
               destroyed := false } : WinState n) = winQuiet n (k + 1) := by
    apply WinState.ext
    · rfl
    · rfl
    · show n - 1 - (n - 1) = (0 : Nat)
      omega
    · funext t
      have hlt := t.isLt
      show (if t.val < n - 1 ∨ t.val + 1 = n then WPhase.idle
        else WPhase.preBlock2) = WPhase.idle
      rw [if_pos (show t.val < n - 1 ∨ t.val + 1 = n by omega)]
    · rfl
    · funext t
      have hlt := t.isLt
      show (if t.val < n - 1 ∨ t.val + 1 = n then k + 1 else k) = k + 1
      rw [if_pos (show t.val < n - 1 ∨ t.val + 1 = n by omega)]
    · rfl
    · rfl
    · rfl
  rw [he] at h
  exact h

/-- From a fresh Windows barrier with at least two participants, any number
of consecutive rounds can complete on the same instance. -/
theorem winQuiet_reach (n : Nat) (hn2 : 2 ≤ n) (k : Nat) :
    WinReach n (winQuiet n k) := by
  induction k with
  | zero => exact Relation.ReflTransGen.refl
  | succ k ih => exact Relation.ReflTransGen.trans ih (win_round n k hn2)

/-! ### Pthread barrier invariant -/

theorem cnt_const_full {n : Nat} {α : Type} [DecidableEq α] (p : α) :
    cnt (fun _ : Fin n => p) p = n := by
  unfold cnt
  rw [Finset.filter_true_of_mem (fun _ _ => rfl)]
  simp

theorem all_of_cnt_full {n : Nat} {α : Type} [DecidableEq α]
    {f : Fin n → α} {p : α} (h : cnt f p = n) : ∀ t, f t = p := by
  intro t
  have hc : (Finset.univ : Finset (Fin n)).card ≤
      (Finset.univ.filter fun u => f u = p).card := by
    unfold cnt at h
    simp [h]
  have heq := Finset.eq_of_subset_of_card_le
    (Finset.filter_subset (fun u => f u = p) Finset.univ) hc
  have : t ∈ Finset.univ.filter fun u => f u = p := by
    rw [heq]
    exact Finset.mem_univ t
  exact (Finset.mem_filter.mp this).2

theorem pbInv_init (n : Nat) : PBInv n (PBInit n) := by
  refine ⟨?_, ?_⟩
  · show (0 : Int) + (cnt (fun _ : Fin n => PBPhase.idle) PBPhase.idle : Int) = n
    rw [cnt_const_full]
    omega
  · intro hn
    have hz : cnt (PBInit n).phase PBPhase.inBarrier = 0 :=
      cnt_eq_zero.mpr fun t hc => by cases hc
    omega

theorem pbInv_step {n : Nat} {s s' : PBState n} (h : PBStep n s s')
    (inv : PBInv n s) : PBInv n s' := by
  obtain ⟨waitEq, inLt⟩ := inv
  cases h with
  | enter t hp hd hv =>
      refine ⟨?_, ?_⟩
      · dsimp only
        have hc : cnt (Function.update s.phase t PBPhase.counted) PBPhase.idle + 1
            = cnt s.phase PBPhase.idle :=
          cnt_update_eq_ne hp (by decide)
        omega
      · intro hn
        have hc : cnt (Function.update s.phase t PBPhase.counted) PBPhase.inBarrier
            = cnt s.phase PBPhase.inBarrier :=
          cnt_update_ne_ne (by rw [hp]; decide) (by decide)
        dsimp only
        rw [hc]
        exact inLt hn
  | nativeNonLast t hp hd hlim =>
      refine ⟨?_, ?_⟩
      · dsimp only
        have hc : cnt (Function.update s.phase t PBPhase.inBarrier) PBPhase.idle
            = cnt s.phase PBPhase.idle :=
          cnt_update_ne_ne (by rw [hp]; decide) (by decide)
        rw [hc]
        exact waitEq
      · intro hn
        have hc : cnt (Function.update s.phase t PBPhase.inBarrier) PBPhase.inBarrier
            = cnt s.phase PBPhase.inBarrier + 1 :=
          cnt_update_ne_eq (by rw [hp]; decide) rfl
        dsimp only
        rw [hc]
        have := inLt hn
        omega
  | nativeLast t hp hd hlim =>
      refine ⟨?_, ?_⟩
      · dsimp only
        have hc : cnt (fun u => if u = t ∨ s.phase u = PBPhase.inBarrier
              then PBPhase.released else s.phase u) PBPhase.idle
            = cnt s.phase PBPhase.idle := by
          apply cnt_congr
          intro u
          by_cases hq : u = t ∨ s.phase u = PBPhase.inBarrier
          · rw [if_pos hq]
            constructor
            · intro hc2
              cases hc2
            · intro hc2
              rcases hq with hq | hq
              · subst hq
                rw [hc2] at hp
                cases hp
              · rw [hc2] at hq
                cases hq
          · rw [if_neg hq]
        rw [hc]
        exact waitEq
      · intro hn
        have hc : cnt (fun u => if u = t ∨ s.phase u = PBPhase.inBarrier
              then PBPhase.released else s.phase u) PBPhase.inBarrier = 0 := by
          apply cnt_eq_zero.mpr
          intro u
          by_cases hq : u = t ∨ s.phase u = PBPhase.inBarrier
          · rw [if_pos hq]
            decide
          · rw [if_neg hq]
            intro hc2
            exact hq (Or.inr hc2)
        dsimp only
        rw [hc]
        exact hn
  | exit t hp hd =>
      refine ⟨?_, ?_⟩
      · dsimp only
        have hc : cnt (Function.update s.phase t PBPhase.idle) PBPhase.idle
            = cnt s.phase PBPhase.idle + 1 :=
          cnt_update_ne_eq (by rw [hp]; decide) rfl
        rw [hc]
        omega
      · intro hn
        have hc : cnt (Function.update s.phase t PBPhase.idle) PBPhase.inBarrier
            = cnt s.phase PBPhase.inBarrier :=
          cnt_update_ne_ne (by rw [hp]; decide) (by decide)
        dsimp only
        rw [hc]
        exact inLt hn
  | destroy hv hw hd =>
      exact ⟨waitEq, inLt⟩

/-- Every reachable state of the pthread barrier wrapper satisfies the
invariant. -/
theorem pbReach_inv {n : Nat} {s : PBState n} (h : PBReach n s) : PBInv n s := by
  induction h with
  | refl => exact pbInv_init n
  | tail _ hbc ih => exact pbInv_step hbc ih

/-! ### Corollaries of the invariants -/

theorem cv_completed_le_rounds {n : Nat} {s : CVState n} (inv : CVInv n s)
    (t : Fin n) : s.completed t ≤ s.rounds := by
  cases hq : s.phase t with
  | idle => exact le_of_eq (inv.idleInv t hq).1
  | waiting => exact le_of_eq (inv.waitingInv t hq).1
  | woken =>
      have := (inv.wokenInv t hq).1
      omega

theorem cv_rounds_le_arrivals {n : Nat} {s : CVState n} (inv : CVInv n s)
    (u : Fin n) : s.rounds ≤ cvArrivals s u := by
  unfold cvArrivals
  cases hq : s.phase u with
  | idle =>
      rw [if_pos rfl, (inv.idleInv u hq).1]
      omega
  | waiting =>
      rw [if_neg (by decide)]
      have := (inv.waitingInv u hq).1
      omega
  | woken =>
      rw [if_neg (by decide)]
      have := (inv.wokenInv u hq).1
      omega

theorem cv_rounds_le_writes {n : Nat} {s : CVState n} (inv : CVInv n s)
    (u : Fin n) : s.rounds ≤ s.writes u := by
  cases hq : s.phase u with
  | idle =>
      rcases (inv.idleInv u hq).2 with h | h <;> omega
  | waiting =>
      have := (inv.waitingInv u hq).2
      omega
  | woken => exact le_of_eq (inv.wokenInv u hq).2.symm

theorem win_completed_le_r2 {n : Nat} {w : WinState n} (inv : WinInv n w)
    (t : Fin n) : w.completed t ≤ w.r2 := by
  have hsplit : w.r1 = w.r2 ∨ w.r1 = w.r2 + 1 := by
    have := inv.rle
    omega
  rcases hsplit with h0 | h1
  · obtain ⟨hL1, hM, -, -, hrounds, -, -⟩ := inv.k0 h0
    cases hq : w.phase t with
    | idle =>
        have h1 := (inv.arr t).1 hq
        have h2 := (hrounds t).1 hq
        omega
    | preBlock1 =>
        have h1 := (inv.arr t).2 (by rw [hq]; decide)
        have h2 := (hrounds t).2.1 hq
        omega
    | releasing1 => exact absurd (cnt_pos hq) (by omega)
    | mid => exact absurd (cnt_pos hq) (by omega)
    | preBlock2 =>
        have h1 := (inv.arr t).2 (by rw [hq]; decide)
        have h2 := (hrounds t).2.2.1 hq
        omega
    | releasing2 =>
        have h1 := (inv.arr t).2 (by rw [hq]; decide)
        have h2 := (hrounds t).2.2.2 hq
        omega
  · obtain ⟨hall, -, -, -⟩ := inv.k1 h1
    have h2 := (inv.arr t).2 (hall t).2.1
    have h3 := (hall t).1
    omega

theorem win_r1_le_arrived {n : Nat} {w : WinState n} (inv : WinInv n w)
    (u : Fin n) : w.r1 ≤ w.arrived u := by
  have hsplit : w.r1 = w.r2 ∨ w.r1 = w.r2 + 1 := by
    have := inv.rle
    omega
  rcases hsplit with h0 | h1
  · obtain ⟨hL1, hM, -, -, hrounds, -, -⟩ := inv.k0 h0
    cases hq : w.phase u with
    | idle => exact le_of_eq ((hrounds u).1 hq).symm
    | preBlock1 =>
        have := (hrounds u).2.1 hq
        omega
    | releasing1 => exact absurd (cnt_pos hq) (by omega)
    | mid => exact absurd (cnt_pos hq) (by omega)
    | preBlock2 => exact le_of_eq ((hrounds u).2.2.1 hq).symm
    | releasing2 => exact le_of_eq ((hrounds u).2.2.2 hq).symm
  · obtain ⟨hall, -, -, -⟩ := inv.k1 h1
    exact le_of_eq ((hall u).1).symm

/-- A step that completes the fill of a round (`r1` increments) can only be
the threshold arrival `wait_count_ + 1 == thread_count_`, and it leaves
every thread with exactly `r1` arrivals. -/
theorem win_threshold_arrived {n : Nat} {w w' : WinState n} (winv : WinInv n w)
    (hstep : WinStep n w w') (hr : w'.r1 = w.r1 + 1) :
    w.waitCount + 1 = (n : Int) ∧ ∀ u, w'.arrived u = w'.r1 := by
  cases hstep with
  | addArriveNonLast t hp hd hn hlim =>
      exfalso
      dsimp only at hr
      omega
  | addArriveLast t hp hd hn hlim =>
      refine ⟨hlim, ?_⟩
      have hk0r : w.r1 = w.r2 := by
        have := winv.rle
        rcases (by omega : w.r1 = w.r2 ∨ w.r1 = w.r2 + 1) with h0 | h1
        · exact h0
        · exact absurd hp ((winv.k1 h1).1 t).2.1
      obtain ⟨hL1, hM, -, -, hrounds, -, -⟩ := winv.k0 hk0r
      have hW1n : cnt w.phase WPhase.preBlock1 + 1 = n := by
        have hwe := winv.waitEq
        rw [hL1, hM] at hwe
        omega
      have hall : ∀ u, u ≠ t → w.phase u = WPhase.preBlock1 :=
        all_but_of_cnt (by rw [hp]; decide) hW1n
      intro u
      dsimp only
      by_cases hut : u = t
      · subst hut
        rw [Function.update_same, (hrounds u).1 hp]
      · rw [Function.update_noteq hut]
        exact (hrounds u).2.1 (hall u hut)
  | release1 t hp hd =>
      exfalso
      dsimp only at hr
      omega
  | block1 t hp hd hs2 =>
      exfalso
      dsimp only at hr
      omega
  | addExitNonLast t hp hd hlim =>
      exfalso
      dsimp only at hr
      omega
  | addExitLast t hp hd hlim =>
      exfalso
      dsimp only at hr
      omega
  | release2 t hp hd =>
      exfalso
      dsimp only at hr
      omega
  | block2 t hp hd hs2 =>
      exfalso
      dsimp only at hr
      omega
  | dtor hd =>
      exfalso
      dsimp only at hr
      omega

/-- The concrete trace reaching `winCex`: thread 0 arrives, thread 1
completes the cohort and releases the first turnstile, thread 0 passes it,
both threads run their second atomic update of `wait_count_`. -/
theorem winCex_reach : WinReach 2 winCex := by
  have h1 : WinReach 2
      { waitCount := 1
        sem1 := 0
        sem2 := 0
        phase := fun t => if t = 0 then WPhase.preBlock1 else WPhase.idle
        arrived := fun t => if t = 0 then 1 else 0
        completed := fun _ => 0
        r1 := 0
        r2 := 0
        destroyed := false } :=
    Relation.ReflTransGen.tail Relation.ReflTransGen.refl
      (winStep_cast (WinStep.addArriveNonLast (WinInit 2) 0 rfl rfl
        (by decide) (by decide)) (by
        apply WinState.ext <;>
          first
            | rfl
            | (funext u; revert u; decide)))
  have h2 : WinReach 2
      { waitCount := 2
        sem1 := 0
        sem2 := 0
        phase := fun t => if t = 0 then WPhase.preBlock1 else WPhase.releasing1
        arrived := fun _ => 1
        completed := fun _ => 0
        r1 := 1
        r2 := 0
        destroyed := false } :=
    Relation.ReflTransGen.tail h1
      (winStep_cast (WinStep.addArriveLast _ 1 (by decide) rfl
        (by decide) (by decide)) (by
        apply WinState.ext <;>
          first
            | rfl
            | (funext u; revert u; decide)))
  have h3 : WinReach 2
      { waitCount := 2
        sem1 := 1
        sem2 := 0
        phase := fun t => if t = 0 then WPhase.preBlock1 else WPhase.mid
        arrived := fun _ => 1
        completed := fun _ => 0
        r1 := 1
        r2 := 0
        destroyed := false } :=
    Relation.ReflTransGen.tail h2
      (winStep_cast (WinStep.release1 _ 1 (by decide) rfl) (by
        apply WinState.ext <;>
          first
            | rfl
            | (funext u; revert u; decide)))
  have h4 : WinReach 2
      { waitCount := 2
        sem1 := 0
        sem2 := 0
        phase := fun _ => WPhase.mid
        arrived := fun _ => 1
        completed := fun _ => 0
        r1 := 1
        r2 := 0
        destroyed := false } :=
    Relation.ReflTransGen.tail h3
      (winStep_cast (WinStep.block1 _ 0 (by decide) rfl (by decide))
        (by
        apply WinState.ext <;>
          first
            | rfl
            | (funext u; revert u; decide)))
  have h5 : WinReach 2
      { waitCount := 1
        sem1 := 0
        sem2 := 0
        phase := fun t => if t = 0 then WPhase.preBlock2 else WPhase.mid
        arrived := fun _ => 1
        completed := fun _ => 0
        r1 := 1
        r2 := 0
        destroyed := false } :=
    Relation.ReflTransGen.tail h4
      (winStep_cast (WinStep.addExitNonLast _ 0 (by decide) rfl (by decide))
        (by
        apply WinState.ext <;>
          first
            | rfl
            | (funext u; revert u; decide)))
  exact Relation.ReflTransGen.tail h5
    (winStep_cast (WinStep.addExitLast _ 1 (by decide) rfl (by decide))
      (show _ = winCex by
        apply WinState.ext <;>
          first
            | rfl
            | (funext u; revert u; decide)))

/-! ### Claim theorems -/

/-- C1: For every valid barrier with participant count `n`, no call to
`Wait` returns before all `n` threads of its round have called `Wait`, and
rounds are strictly sequential: every arrival counted toward a threshold is
an arrival for exactly the round that threshold releases.  Stated on the
condvar strategy (completed rounds never exceed any thread's arrival count;
a threshold step requires `wait_count_ + 1 = thread_count_` and leaves
every thread with exactly `rounds` arrivals) and on the Windows turnstile
strategy (same statements with the ghost round counters `r1`, `r2`). -/
theorem barrier_no_early_release (n : Nat) (s : CVState n) (hs : CVReach n s)
    (w : WinState n) (hw : WinReach n w) :
    (∀ t u : Fin n, s.completed t ≤ cvArrivals s u) ∧
    (∀ s', CVStep n s s' → s'.rounds = s.rounds + 1 →
      s.waitCount + 1 = n ∧ ∀ u, cvArrivals s' u = s'.rounds) ∧
    (∀ t u : Fin n, w.completed t ≤ w.arrived u) ∧
    (∀ w', WinStep n w w' → w'.r1 = w.r1 + 1 → ∀ u, w'.arrived u = w'.r1) := by
  have inv := cvReach_inv hs
  have winv := winReach_inv hw
  refine ⟨?_, ?_, ?_, ?_⟩
  · intro t u
    exact le_trans (cv_completed_le_rounds inv t) (cv_rounds_le_arrivals inv u)
  · intro s' hstep
    cases hstep with
    | write t hp hwr hd =>
        intro hcon
        try dsimp only at hcon
        exfalso
        omega
    | arriveNonLast t hp hwr hd hlim =>
        intro hcon
        try dsimp only at hcon
        exfalso
        omega
    | arriveLast t hp hwr hd hlim =>
        intro _
        refine ⟨hlim, ?_⟩
        have hwn : cnt s.phase CVPhase.waiting + 1 = n := by
          rw [← inv.waitEq]
          exact hlim
        have hall : ∀ u, u ≠ t → s.phase u = CVPhase.waiting :=
          all_but_of_cnt (by rw [hp]; decide) hwn
        intro u
        unfold cvArrivals
        dsimp only
        by_cases hut : u = t
        · subst hut
          rw [Function.update_same, hp,
            if_neg (show CVPhase.idle ≠ CVPhase.waiting by decide),
            if_pos (show CVPhase.idle = CVPhase.idle from rfl),
            (inv.idleInv u hp).1]
        · rw [Function.update_noteq hut, hall u hut,
            if_pos (show CVPhase.waiting = CVPhase.waiting from rfl),
            if_neg (show CVPhase.woken ≠ CVPhase.idle by decide),
            (inv.waitingInv u (hall u hut)).1]
    | exitWoken t hp =>
        intro hcon
        try dsimp only at hcon
        exfalso
        omega
    | dtorEnter hd hn =>
        intro hcon
        try dsimp only at hcon
        exfalso
        omega
    | dtorEnterSmall hd hn =>
        intro hcon
        try dsimp only at hcon
        exfalso
        omega
    | dtorFinish hd =>
        intro hcon
        try dsimp only at hcon
        exfalso
        omega
  · intro t u
    calc w.completed t ≤ w.r2 := win_completed_le_r2 winv t
      _ ≤ w.r1 := winv.rle.1
      _ ≤ w.arrived u := win_r1_le_arrived winv u
  · intro w' hstep
    cases hstep with
    | addArriveNonLast t hp hd hn hlim =>
        intro hcon
        try dsimp only at hcon
        exfalso
        omega
    | addArriveLast t hp hd hn hlim =>
        intro _
        have hk0r : w.r1 = w.r2 := by
          have := winv.rle
          rcases (by omega : w.r1 = w.r2 ∨ w.r1 = w.r2 + 1) with h0 | h1
          · exact h0
          · exact absurd hp ((winv.k1 h1).1 t).2.1
        obtain ⟨hL1, hM, -, -, hrounds, -, -⟩ := winv.k0 hk0r
        have hW1n : cnt w.phase WPhase.preBlock1 + 1 = n := by
          have hwe := winv.waitEq
          rw [hL1, hM] at hwe
          omega
        have hall : ∀ u, u ≠ t → w.phase u = WPhase.preBlock1 :=
          all_but_of_cnt (by rw [hp]; decide) hW1n
        intro u
        dsimp only
        by_cases hut : u = t
        · subst hut
          rw [Function.update_same, (hrounds u).1 hp]
        · rw [Function.update_noteq hut]
          exact (hrounds u).2.1 (hall u hut)
    | release1 t hp hd =>
        intro hcon
        try dsimp only at hcon
        exfalso
        omega
    | block1 t hp hd hs2 =>
        intro hcon
        try dsimp only at hcon
        exfalso
        omega
    | addExitNonLast t hp hd hlim =>
        intro hcon
        try dsimp only at hcon
        exfalso
        omega
    | addExitLast t hp hd hlim =>
        intro hcon
        try dsimp only at hcon
        exfalso
        omega
    | release2 t hp hd =>
        intro hcon
        try dsimp only at hcon
        exfalso
        omega
    | block2 t hp hd hs2 =>
        intro hcon
        try dsimp only at hcon
        exfalso
        omega
    | dtor hd =>
        intro hcon
        try dsimp only at hcon
        exfalso
        omega

theorem barrier_no_early_release_witness :
    (∀ t u : Fin 2, (cvQuiet 2 1).completed t ≤ cvArrivals (cvQuiet 2 1) u) ∧
    (∀ s', CVStep 2 (cvQuiet 2 1) s' → s'.rounds = (cvQuiet 2 1).rounds + 1 →
      (cvQuiet 2 1).waitCount + 1 = 2 ∧ ∀ u, cvArrivals s' u = s'.rounds) ∧
    (∀ t u : Fin 2, (winQuiet 2 1).completed t ≤ (winQuiet 2 1).arrived u) ∧
    (∀ w', WinStep 2 (winQuiet 2 1) w' → w'.r1 = (winQuiet 2 1).r1 + 1 →
      ∀ u, w'.arrived u = w'.r1) :=
  barrier_no_early_release 2 (cvQuiet 2 1) (cvQuiet_reach 2 (by decide) 1)
    (winQuiet 2 1) (winQuiet_reach 2 (by decide) 1)

/-- C3: On the condvar strategy, every shared-memory write performed by a
participant before its `Wait` call of round `r` is in the shared state
whenever any participant has returned from its round-`r` `Wait`: if some
thread has completed `r` rounds, every thread has performed at least `r`
harness writes.  Under the sequentially consistent interleaving semantics
of the model this is the happens-before edge of the specification. -/
theorem barrier_happens_before (n : Nat) (s : CVState n) (hs : CVReach n s)
    (t : Fin n) (r : Nat) (hr : r ≤ s.completed t) (u : Fin n) :
    r ≤ s.writes u := by
  have inv := cvReach_inv hs
  calc r ≤ s.completed t := hr
    _ ≤ s.rounds := cv_completed_le_rounds inv t
    _ ≤ s.writes u := cv_rounds_le_writes inv u

theorem barrier_happens_before_witness :
    1 ≤ (cvQuiet 2 1).completed 0 ∧ 1 ≤ (cvQuiet 2 1).writes 1 :=
  ⟨by decide, barrier_happens_before 2 (cvQuiet 2 1)
    (cvQuiet_reach 2 (by decide) 1) 0 1 (by decide) 1⟩

/-- C4: A barrier that is invalid (count zero) or has a single participant
never blocks a caller of `Wait`: the Windows body guard is false for counts
zero and one, the condvar and pthread body guards are false for count zero,
and in the models with one participant no thread is ever observed parked
(condvar: never `waiting`; Windows: always `idle`; pthread: never inside
the native barrier wait). -/
theorem wait_trivial_for_invalid_or_single :
    winWaitEntersProtocol 0 = false ∧ winWaitEntersProtocol 1 = false ∧
    cvWaitEntersBody 0 = false ∧ pbWaitEntersBody 0 = false ∧
    (∀ s, CVReach 1 s → ∀ t, s.phase t = CVPhase.idle) ∧
    (∀ m, m ≤ 1 → ∀ w : WinState m, WinReach m w → ∀ t, w.phase t = WPhase.idle) ∧
    (∀ p, PBReach 1 p → ∀ t, p.phase t ≠ PBPhase.inBarrier) := by
  refine ⟨rfl, rfl, rfl, rfl, ?_, ?_, ?_⟩
  · intro s hs t
    exact (cvReach_inv hs).oneIdle rfl t
  · intro m hm w hw t
    exact ((winReach_inv hw).small hm).1 t
  · intro p hp t
    have inv := pbReach_inv hp
    have hz : cnt p.phase PBPhase.inBarrier = 0 := by
      have := inv.inLt (by omega)
      omega
    exact cnt_eq_zero.mp hz t

theorem wait_trivial_for_invalid_or_single_witness :
    (∀ t, (CVInit 1).phase t = CVPhase.idle) ∧
    (∀ t, (WinInit 1).phase t = WPhase.idle) ∧
    (∀ t, (PBInit 1).phase t ≠ PBPhase.inBarrier) :=
  ⟨wait_trivial_for_invalid_or_single.2.2.2.2.1 (CVInit 1)
      Relation.ReflTransGen.refl,
    wait_trivial_for_invalid_or_single.2.2.2.2.2.1 1 (by decide) (WinInit 1)
      Relation.ReflTransGen.refl,
    wait_trivial_for_invalid_or_single.2.2.2.2.2.2 (PBInit 1)
      Relation.ReflTransGen.refl⟩

/-- C5: On all three strategies `is_valid_` is initialized to true exactly
when the participant count is positive: directly from the initializer on
the Windows and condvar versions, and through the success of
`pthread_barrier_init` (which fails exactly on a zero count, resource
exhaustion not modelled) on the pthread version. -/
theorem is_valid_iff_positive_count (c : Nat) :
    (winIsValid c = true ↔ 0 < c) ∧ (cvIsValid c = true ↔ 0 < c) ∧
    (pbIsValid c = true ↔ 0 < c) := by
  refine ⟨?_, ?_, ?_⟩ <;>
    simp [winIsValid, cvIsValid, pbIsValid, pthreadBarrierInitOk]

/-- C6: the condvar strategy increments `wait_count_` under the mutex
(every step changes it by at most one, resetting only at the threshold);
the thread whose increment reaches `thread_count_` resets `wait_count_` to
0, sets `exit_count_` to `thread_count_ + 1` (and in the same critical
section performs its own decrement), and its broadcast turns every parked
thread into a woken one; every woken thread decrements `exit_count_` as it
leaves; the decrement that reaches 0 signals a blocked destructor
(`waitingExit` becomes `wokenExit`), after which the destructor can
finish. -/
theorem condvar_exit_handshake (n : Nat) (s s' : CVState n)
    (h : CVStep n s s') :
    (s'.waitCount = s.waitCount ∨ s'.waitCount = s.waitCount + 1 ∨
      (s.waitCount + 1 = n ∧ s'.waitCount = 0)) ∧
    (s'.rounds = s.rounds + 1 →
      s.waitCount + 1 = n ∧ s'.waitCount = 0 ∧
      s'.exitCount = ((n : Int) + 1) - 1 ∧
      ∀ t, s.phase t = CVPhase.waiting → s'.phase t = CVPhase.woken) ∧
    (∀ t, s.phase t = CVPhase.woken → s'.phase t = CVPhase.idle →
      s'.exitCount = s.exitCount - 1) ∧
    (s.dtor = CVDtor.waitingExit → s'.dtor = CVDtor.wokenExit →
      s'.exitCount = 0) ∧
    (s.dtor = CVDtor.wokenExit →
      CVStep n s { s with dtor := CVDtor.done }) := by
  refine ⟨?_, ?_, ?_, ?_, ?_⟩
  · cases h with
    | write t hp hwr hd => exact Or.inl rfl
    | arriveNonLast t hp hwr hd hlim => exact Or.inr (Or.inl rfl)
    | arriveLast t hp hwr hd hlim => exact Or.inr (Or.inr ⟨hlim, rfl⟩)
    | exitWoken t hp => exact Or.inl rfl
    | dtorEnter hd hn => exact Or.inl rfl
    | dtorEnterSmall hd hn => exact Or.inl rfl
    | dtorFinish hd => exact Or.inl rfl
  · cases h with
    | write t hp hwr hd =>
        intro hcon
        dsimp only at hcon
        exfalso
        omega
    | arriveNonLast t hp hwr hd hlim =>
        intro hcon
        dsimp only at hcon
        exfalso
        omega
    | arriveLast t hp hwr hd hlim =>
        intro _
        refine ⟨hlim, rfl, rfl, ?_⟩
        intro u hu
        dsimp only
        rw [if_pos hu]
    | exitWoken t hp =>
        intro hcon
        dsimp only at hcon
        exfalso
        omega
    | dtorEnter hd hn =>
        intro hcon
        dsimp only at hcon
        exfalso
        omega
    | dtorEnterSmall hd hn =>
        intro hcon
        dsimp only at hcon
        exfalso
        omega
    | dtorFinish hd =>
        intro hcon
        dsimp only at hcon
        exfalso
        omega
  · intro t hwo hidle
    cases h with
    | write u hp hwr hd =>
        dsimp only at hidle
        rw [hwo] at hidle
        cases hidle
    | arriveNonLast u hp hwr hd hlim =>
        dsimp only at hidle
        by_cases htu : t = u
        · subst htu
          rw [hwo] at hp
          cases hp
        · rw [Function.update_noteq htu, hwo] at hidle
          cases hidle
    | arriveLast u hp hwr hd hlim =>
        dsimp only at hidle
        rw [hwo, if_neg (show CVPhase.woken ≠ CVPhase.waiting by decide)]
          at hidle
        cases hidle
    | exitWoken u hp => exact rfl
    | dtorEnter hd hn => exact rfl
    | dtorEnterSmall hd hn =>
        dsimp only at hidle
        rw [hwo] at hidle
        cases hidle
    | dtorFinish hd =>
        dsimp only at hidle
        rw [hwo] at hidle
        cases hidle
  · intro hdw hdone
    cases h with
    | write t hp hwr hd =>
        rw [hd] at hdw
        cases hdw
    | arriveNonLast t hp hwr hd hlim =>
        rw [hd] at hdw
        cases hdw
    | arriveLast t hp hwr hd hlim =>
        rw [hd] at hdw
        cases hdw
    | exitWoken t hp =>
        dsimp only at hdone
        by_cases hc : s.exitCount - 1 = 0 ∧ s.dtor = CVDtor.waitingExit
        · exact hc.1
        · rw [if_neg hc, hdw] at hdone
          cases hdone
    | dtorEnter hd hn =>
        rw [hd] at hdw
        cases hdw
    | dtorEnterSmall hd hn =>
        rw [hd] at hdw
        cases hdw
    | dtorFinish hd =>
        rw [hd] at hdw
        cases hdw
  · intro hd
    exact CVStep.dtorFinish s hd

theorem condvar_exit_handshake_witness :
    (({ CVInit 1 with dtor := CVDtor.done } : CVState 1).waitCount =
        (CVInit 1).waitCount ∨
      ({ CVInit 1 with dtor := CVDtor.done } : CVState 1).waitCount =
        (CVInit 1).waitCount + 1 ∨
      ((CVInit 1).waitCount + 1 = 1 ∧
        ({ CVInit 1 with dtor := CVDtor.done } : CVState 1).waitCount = 0)) ∧
    (({ CVInit 1 with dtor := CVDtor.done } : CVState 1).rounds =
        (CVInit 1).rounds + 1 →
      (CVInit 1).waitCount + 1 = 1 ∧
      ({ CVInit 1 with dtor := CVDtor.done } : CVState 1).waitCount = 0 ∧
      ({ CVInit 1 with dtor := CVDtor.done } : CVState 1).exitCount =
        (((1 : Nat) : Int) + 1) - 1 ∧
      ∀ t, (CVInit 1).phase t = CVPhase.waiting →
        ({ CVInit 1 with dtor := CVDtor.done } : CVState 1).phase t =
          CVPhase.woken) ∧
    (∀ t, (CVInit 1).phase t = CVPhase.woken →
      ({ CVInit 1 with dtor := CVDtor.done } : CVState 1).phase t =
        CVPhase.idle →
      ({ CVInit 1 with dtor := CVDtor.done } : CVState 1).exitCount =
        (CVInit 1).exitCount - 1) ∧
    ((CVInit 1).dtor = CVDtor.waitingExit →
      ({ CVInit 1 with dtor := CVDtor.done } : CVState 1).dtor =
        CVDtor.wokenExit →
      ({ CVInit 1 with dtor := CVDtor.done } : CVState 1).exitCount = 0) ∧
    ((CVInit 1).dtor = CVDtor.wokenExit →
      CVStep 1 (CVInit 1) { CVInit 1 with dtor := CVDtor.done }) :=
  condvar_exit_handshake 1 (CVInit 1) { CVInit 1 with dtor := CVDtor.done }
    (CVStep.dtorEnterSmall (CVInit 1) rfl (by decide))

/-- C7: on the double-turnstile strategy, when the releasing thread is
about to run `ReleaseSemaphore(turnstile1_, thread_count_ - 1)` the first
turnstile holds no permits, exactly `thread_count_ - 1` peers are blocked
on it and `wait_count_` is at the threshold, and the release step posts
`thread_count_ - 1` permits; when a thread is about to release the second
turnstile, every thread has left the first (no thread blocked on
`turnstile1_`, no permit left in it, so it is ready for reuse) and all
other threads are blocked on the second. -/
theorem turnstile_double_phase (n : Nat) (w : WinState n)
    (hw : WinReach n w) (hd : w.destroyed = false) :
    (∀ t, w.phase t = WPhase.releasing1 →
      w.sem1 = 0 ∧ cnt w.phase WPhase.preBlock1 + 1 = n ∧
      w.waitCount = (n : Int) ∧ cnt w.phase WPhase.preBlock2 = 0 ∧
      WinStep n w { w with
        sem1 := w.sem1 + (n - 1)
        phase := Function.update w.phase t WPhase.mid }) ∧
    (∀ t, w.phase t = WPhase.releasing2 →
      w.sem1 = 0 ∧ w.sem2 = 0 ∧ cnt w.phase WPhase.preBlock1 = 0 ∧
      cnt w.phase WPhase.mid = 0 ∧ cnt w.phase WPhase.preBlock2 + 1 = n ∧
      WinStep n w { w with
        sem2 := w.sem2 + (n - 1)
        phase := Function.update w.phase t WPhase.idle
        completed := Function.update w.completed t (w.completed t + 1) }) := by
  have winv := winReach_inv hw
  constructor
  · intro t ht
    have hk1 : w.r1 = w.r2 + 1 := by
      have := winv.rle
      rcases (by omega : w.r1 = w.r2 ∨ w.r1 = w.r2 + 1) with h0 | h1
      · exact absurd (cnt_pos ht) (by have := (winv.k0 h0).1; omega)
      · exact h1
    obtain ⟨hall, hsem2, hrelne, -⟩ := winv.k1 hk1
    obtain ⟨hone, hW1, hsem1, hM, hW2, hwc⟩ :=
      hrelne (by have := cnt_pos ht; omega)
    exact ⟨hsem1, hW1, hwc, hW2, WinStep.release1 w t ht hd⟩
  · intro t ht
    have hk0 : w.r1 = w.r2 := by
      have := winv.rle
      rcases (by omega : w.r1 = w.r2 ∨ w.r1 = w.r2 + 1) with h0 | h1
      · exact h0
      · exact absurd ht ((winv.k1 h1).1 t).2.2
    obtain ⟨hL1, hM, hsem1, hwc, hrounds, hs2eq, hs2ne⟩ := winv.k0 hk0
    obtain ⟨hsem2, hW2, hI, hW1, hone⟩ :=
      hs2ne (by have := cnt_pos ht; omega)
    exact ⟨hsem1, hsem2, hW1, hM, hW2, WinStep.release2 w t ht hd⟩

theorem turnstile_double_phase_witness :
    winCex.destroyed = false ∧
    ((∀ t, winCex.phase t = WPhase.releasing1 →
      winCex.sem1 = 0 ∧ cnt winCex.phase WPhase.preBlock1 + 1 = 2 ∧
      winCex.waitCount = ((2 : Nat) : Int) ∧
      cnt winCex.phase WPhase.preBlock2 = 0 ∧
      WinStep 2 winCex { winCex with
        sem1 := winCex.sem1 + (2 - 1)
        phase := Function.update winCex.phase t WPhase.mid }) ∧
    (∀ t, winCex.phase t = WPhase.releasing2 →
      winCex.sem1 = 0 ∧ winCex.sem2 = 0 ∧
      cnt winCex.phase WPhase.preBlock1 = 0 ∧
      cnt winCex.phase WPhase.mid = 0 ∧
      cnt winCex.phase WPhase.preBlock2 + 1 = 2 ∧
      WinStep 2 winCex { winCex with
        sem2 := winCex.sem2 + (2 - 1)
        phase := Function.update winCex.phase t WPhase.idle
        completed :=
          Function.update winCex.completed t (winCex.completed t + 1) })) :=
  ⟨rfl, turnstile_double_phase 2 winCex winCex_reach rfl⟩

/-- C8: on the condvar strategy `wait_count_` stays in
`[0, thread_count_]` (strictly below the count when it is positive), and a
round is released, with the counter reset to 0, exactly at the step whose
increment reaches `thread_count_`; on the Windows strategy `wait_count_`
stays in `[0, thread_count_]`, the arrivals counted toward the round being
filled never exceed `thread_count_`, and the step completing a fill
happens exactly at `wait_count_ + 1 == thread_count_`, after which no
arrival is counted toward that round any more. -/
theorem arrived_count_bounds (n : Nat) (s : CVState n) (hs : CVReach n s)
    (w : WinState n) (hw : WinReach n w) :
    s.waitCount ≤ n ∧ (0 < n → s.waitCount < n) ∧
    (1 < n → ∀ s', CVStep n s s' →
      (s'.rounds = s.rounds + 1 ↔ s.waitCount + 1 = n ∧ s'.waitCount = 0)) ∧
    0 ≤ w.waitCount ∧ w.waitCount ≤ (n : Int) ∧ winArrivedCur w ≤ n ∧
    (∀ w', WinStep n w w' → w'.r1 = w.r1 + 1 →
      w.waitCount + 1 = (n : Int) ∧ winArrivedCur w' = 0) := by
  have inv := cvReach_inv hs
  have winv := winReach_inv hw
  refine ⟨?_, inv.waitLt, ?_, ?_, ?_, cnt_le _ _, ?_⟩
  · rw [inv.waitEq]
    exact cnt_le _ _
  · intro hn s' hstep
    cases hstep with
    | write t hp hwr hd =>
        dsimp only
        omega
    | arriveNonLast t hp hwr hd hlim =>
        dsimp only
        omega
    | arriveLast t hp hwr hd hlim =>
        dsimp only
        omega
    | exitWoken t hp =>
        dsimp only
        omega
    | dtorEnter hd hn2 =>
        dsimp only
        omega
    | dtorEnterSmall hd hn2 =>
        dsimp only
        omega
    | dtorFinish hd =>
        dsimp only
        omega
  · have h1 := winv.waitEq
    omega
  · have h1 := winv.waitEq
    have h2 := wphase_partition w.phase
    omega
  · intro w' hstep hr
    obtain ⟨h1, h2⟩ := win_threshold_arrived winv hstep hr
    refine ⟨h1, ?_⟩
    unfold winArrivedCur
    apply cnt_eq_zero.mpr
    intro u hc
    rw [h2 u] at hc
    omega

theorem arrived_count_bounds_witness :
    (CVInit 2).waitCount ≤ 2 ∧ (0 < 2 → (CVInit 2).waitCount < 2) ∧
    (1 < 2 → ∀ s', CVStep 2 (CVInit 2) s' →
      (s'.rounds = (CVInit 2).rounds + 1 ↔
        (CVInit 2).waitCount + 1 = 2 ∧ s'.waitCount = 0)) ∧
    0 ≤ (WinInit 2).waitCount ∧ (WinInit 2).waitCount ≤ ((2 : Nat) : Int) ∧
    winArrivedCur (WinInit 2) ≤ 2 ∧
    (∀ w', WinStep 2 (WinInit 2) w' → w'.r1 = (WinInit 2).r1 + 1 →
      (WinInit 2).waitCount + 1 = ((2 : Nat) : Int) ∧
      winArrivedCur w' = 0) :=
  arrived_count_bounds 2 (CVInit 2) Relation.ReflTransGen.refl (WinInit 2)
    Relation.ReflTransGen.refl

/-- C2 (counterexample): on the Windows strategy the destructor closes
both semaphore handles without waiting for outstanding waiters.  In the
reachable two-participant state `winCex`, thread `0` is still inside
`WaitForSingleObject(turnstile2_)` with no permit posted, yet the
destructor step that closes the handles is enabled. -/
theorem win_destructor_unsafe_cex :
    WinReach 2 winCex ∧ winCex.phase 0 = WPhase.preBlock2 ∧
    winCex.sem2 = 0 ∧ WinStep 2 winCex { winCex with destroyed := true } :=
  ⟨winCex_reach, rfl, rfl, WinStep.dtor winCex rfl⟩

/-- C2 (amended): destruction does drain-wait on the two POSIX
strategies.  On the condvar strategy, a completed destruction of a
multi-participant barrier implies the exit handshake finished: the exit
count is zero and no woken thread remains inside `Wait`.  On the pthread
strategy, the only step that destroys the native barrier requires
`waiting_count_ == 0`, which forces every thread out of `Wait`. -/
theorem destructor_drain_handshake (n : Nat) (s : CVState n)
    (hs : CVReach n s) (p p' : PBState n) (hp : PBReach n p) :
    (s.dtor = CVDtor.done → 2 ≤ n →
      s.exitCount = 0 ∧ ∀ t, s.phase t ≠ CVPhase.woken) ∧
    (PBStep n p p' → p'.destroyed = true → p.destroyed = false →
      p.waitingCount = 0 ∧ ∀ t, p.phase t = PBPhase.idle) := by
  constructor
  · intro hdone hn
    have inv := cvReach_inv hs
    obtain ⟨he, hwo⟩ := inv.dtorDone hdone hn
    exact ⟨he, cnt_eq_zero.mp hwo⟩
  · intro hstep hd1 hd0
    have pinv := pbReach_inv hp
    cases hstep with
    | enter t hpp hdd hv =>
        dsimp only at hd1
        rw [hd0] at hd1
        cases hd1
    | nativeNonLast t hpp hdd hlim =>
        dsimp only at hd1
        rw [hd0] at hd1
        cases hd1
    | nativeLast t hpp hdd hlim =>
        dsimp only at hd1
        rw [hd0] at hd1
        cases hd1
    | exit t hpp hdd =>
        dsimp only at hd1
        rw [hd0] at hd1
        cases hd1
    | destroy hv hwz hdd =>
        refine ⟨hwz, ?_⟩
        have hwe := pinv.waitEq
        rw [hwz] at hwe
        have hidle : cnt p.phase PBPhase.idle = n := by omega
        exact all_of_cnt_full hidle

theorem destructor_drain_handshake_witness :
    ((CVInit 2).dtor = CVDtor.done → 2 ≤ 2 →
      (CVInit 2).exitCount = 0 ∧
      ∀ t, (CVInit 2).phase t ≠ CVPhase.woken) ∧
    (PBStep 2 (PBInit 2) { PBInit 2 with destroyed := true } →
      ({ PBInit 2 with destroyed := true } : PBState 2).destroyed = true →
      (PBInit 2).destroyed = false →
      (PBInit 2).waitingCount = 0 ∧
      ∀ t, (PBInit 2).phase t = PBPhase.idle) :=
  destructor_drain_handshake 2 (CVInit 2) Relation.ReflTransGen.refl
    (PBInit 2) { PBInit 2 with destroyed := true } Relation.ReflTransGen.refl

/-- C9: a barrier with a positive participant count is reusable for an
unbounded number of rounds: after any number `k` of complete rounds the
quiet state (every thread idle, every per-thread completion counter at
`k`) is reachable on the condvar strategy, and on the Windows strategy
whenever the protocol is entered at all (`thread_count_ > 1`); moreover in
every reachable state no thread has completed more rounds than were
released (no double release for one arrival), and no round is released
before being fully arrived. -/
theorem barrier_reusable (n : Nat) (hn : 0 < n) (k : Nat) :
    CVReach n (cvQuiet n k) ∧ (cvQuiet n k).rounds = k ∧
    (∀ t, (cvQuiet n k).completed t = k) ∧
    (∀ s : CVState n, CVReach n s → ∀ t,
      s.completed t ≤ s.rounds ∧ s.rounds ≤ cvArrivals s t) ∧
    (2 ≤ n → WinReach n (winQuiet n k) ∧ (winQuiet n k).r2 = k ∧
      ∀ t, (winQuiet n k).completed t = k) ∧
    (∀ w : WinState n, WinReach n w → ∀ t,
      w.completed t ≤ w.r2 ∧ w.r1 ≤ w.arrived t) := by
  refine ⟨cvQuiet_reach n hn k, rfl, fun t => rfl, ?_, ?_, ?_⟩
  · intro s hs t
    have inv := cvReach_inv hs
    exact ⟨cv_completed_le_rounds inv t, cv_rounds_le_arrivals inv t⟩
  · intro hn2
    exact ⟨winQuiet_reach n hn2 k, rfl, fun t => rfl⟩
  · intro w hw t
    have winv := winReach_inv hw
    exact ⟨win_completed_le_r2 winv t, win_r1_le_arrived winv t⟩

theorem barrier_reusable_witness :
    0 < 2 ∧ CVReach 2 (cvQuiet 2 3) ∧ WinReach 2 (winQuiet 2 3) :=
  ⟨by decide, (barrier_reusable 2 (by decide) 3).1,
    ((barrier_reusable 2 (by decide) 3).2.2.2.2.1 (by decide)).1⟩

/-- C10: `exit_count_` is initialized to 1 by the condvar constructor, so
if no round has ever released, the destructor of a valid barrier does not
block: it never sits in `pthread_cond_wait(&exit_condition_)` before a
first release, and from any round-zero state with the destructor not yet
called, its critical section runs `--exit_count_` down to 0 and completes
immediately (for `thread_count_ <= 1` the guard skips the handshake
entirely). -/
theorem condvar_fresh_destroy (n : Nat) (s : CVState n) (hs : CVReach n s)
    (hr : s.rounds = 0) :
    (CVInit n).exitCount = 1 ∧
    s.dtor ≠ CVDtor.waitingExit ∧ s.dtor ≠ CVDtor.wokenExit ∧
    (s.dtor = CVDtor.notCalled →
      s.exitCount = 1 ∧
      (1 < n → CVStep n s { s with
        exitCount := s.exitCount - 1
        dtor := CVDtor.done }) ∧
      (n ≤ 1 → CVStep n s { s with dtor := CVDtor.done })) := by
  have inv := cvReach_inv hs
  have hnw : s.dtor ≠ CVDtor.waitingExit := fun hc => by
    have := inv.dtorBlocked (Or.inl hc)
    omega
  have hnk : s.dtor ≠ CVDtor.wokenExit := fun hc => by
    have := inv.dtorBlocked (Or.inr hc)
    omega
  refine ⟨rfl, hnw, hnk, ?_⟩
  intro hd
  have hwoken : cnt s.phase CVPhase.woken = 0 := by
    apply cnt_eq_zero.mpr
    intro t hc
    have := (inv.wokenInv t hc).1
    omega
  have hec : s.exitCount = 1 := by
    have he := inv.exitEq
    rw [hwoken, hd, cvDtorDec_notCalled] at he
    omega
  refine ⟨hec, ?_, ?_⟩
  · intro hn
    refine cvStep_cast (CVStep.dtorEnter s hd hn) ?_
    have hif : (if s.exitCount - 1 = 0 then CVDtor.done
        else CVDtor.waitingExit) = CVDtor.done := by
      rw [hec]
      simp
    rw [hif]
  · intro hn
    exact CVStep.dtorEnterSmall s hd hn

theorem condvar_fresh_destroy_witness :
    (CVInit 2).exitCount = 1 ∧
    (CVInit 2).dtor ≠ CVDtor.waitingExit ∧
    (CVInit 2).dtor ≠ CVDtor.wokenExit ∧
    ((CVInit 2).dtor = CVDtor.notCalled →
      (CVInit 2).exitCount = 1 ∧
      (1 < 2 → CVStep 2 (CVInit 2) { CVInit 2 with
        exitCount := (CVInit 2).exitCount - 1
        dtor := CVDtor.done }) ∧
      (2 ≤ 1 → CVStep 2 (CVInit 2) { CVInit 2 with dtor := CVDtor.done })) :=
  condvar_fresh_destroy 2 (CVInit 2) Relation.ReflTransGen.refl rfl

end Barrier
